import Mathlib

/-!
Verification of the SATEC equivalence-checking core (`transform.py`, `ec.py`).

The circuit-graph and CNF container classes (`circuit.circuit`, `circuit.cnf`)
are external collaborators that are not part of the sources; they are modelled
from the specification's data model: a CNF is a conjunction (list) of clauses,
a clause a disjunction (list) of literals, a literal a (variable-name,
polarity) pair; a circuit exposes input names, output names and one defining
equation per named signal; the satisfiability oracle returns a satisfying
assignment or `none`.

Python functions that can raise are embedded as `Except PyErr`; the possible
runtime faults of the source (a `TypeError` from applying `~`/`|` to `None`,
a `KeyError` from a missing dictionary key, an `UnboundLocalError` from
returning a never-assigned local) are the error constructors.  Recursions of
the source that walk signal equations through the circuit dictionary
(`isLiteral`, `getLiteralValue`) are given explicit fuel; fuel exhaustion
models nontermination on cyclic inputs and never occurs on the well-formed
(acyclic) circuits considered by the theorems.
-/

set_option maxRecDepth 100000

namespace ECheck

/-- Runtime faults of the embedded Python code. -/
inductive PyErr where
  | typeError
  | keyError
  | unboundLocal
  | outOfFuel
deriving DecidableEq

/-- Equality on `Except` results is decidable (needed to evaluate concrete
runs of the embedded functions). -/
instance {ε α : Type} [DecidableEq ε] [DecidableEq α] :
    DecidableEq (Except ε α) := fun x y =>
  match x, y with
  | .error a, .error b =>
      if h : a = b then .isTrue (by rw [h])
      else .isFalse (by intro hc; cases hc; exact h rfl)
  | .error _, .ok _ => .isFalse (by intro hc; cases hc)
  | .ok _, .error _ => .isFalse (by intro hc; cases hc)
  | .ok a, .ok b =>
      if h : a = b then .isTrue (by rw [h])
      else .isFalse (by intro hc; cases hc; exact h rfl)

/-- Modelled from the spec: a literal is a (variable-name, polarity) pair. -/
structure Lit where
  var : String
  pos : Bool
deriving DecidableEq

/-- Modelled from the spec: a clause is a disjunction of literals. -/
abbrev Clause := List Lit

/-- Modelled from the spec: a CNF formula is a conjunction of clauses. -/
abbrev Cnf := List Clause

/-- Positive literal. -/
def pLit (v : String) : Lit := ⟨v, true⟩

/-- Negative literal. -/
def nLit (v : String) : Lit := ⟨v, false⟩

/-- A gate-encoder operand: a CNF variable, a Python `bool`, or Python `None`
(the value `getSatVar` yields for an unresolved reference). -/
inductive Operand where
  | const (b : Bool)
  | var (v : String)
  | pynone
deriving DecidableEq

/-- Truth of a literal under an assignment. -/
def Lit.holds (σ : String → Bool) (l : Lit) : Bool :=
  if l.pos then σ l.var else !(σ l.var)

/-- Truth of a clause (disjunction) under an assignment. -/
def Clause.holds (σ : String → Bool) (c : Clause) : Bool :=
  c.any (Lit.holds σ)

/-- Truth of a CNF (conjunction) under an assignment. -/
def Cnf.holds (σ : String → Bool) (f : Cnf) : Bool :=
  f.all (Clause.holds σ)

/-! ## Gate encoders (`transform.py`, lines 42-110)

Each encoder mirrors the branch structure of its Python source.  A `pynone`
operand reaching any branch applies `~`/`|` to `None` and raises `TypeError`;
every branch of every encoder uses each operand, so any `pynone` operand is a
`typeError`. -/

/-- `equals(in1, out)` from `transform.py`. -/
def equals : Operand → String → Except PyErr Cnf
  | .const b, out => if b then .ok [[pLit out]] else .ok [[nLit out]]
  | .var x, out => .ok [[nLit x, pLit out], [pLit x, nLit out]]
  | .pynone, _ => .error .typeError

/-- `gate_not(in1, out)` from `transform.py`. -/
def gate_not : Operand → String → Except PyErr Cnf
  | .const b, out => if b then .ok [[nLit out]] else .ok [[pLit out]]
  | .var x, out => .ok [[nLit x, nLit out], [pLit x, pLit out]]
  | .pynone, _ => .error .typeError

/-- `gate_and(in1, in2, out)` from `transform.py`. -/
def gate_and : Operand → Operand → String → Except PyErr Cnf
  | .const a, .const b, out =>
      if a && b then .ok [[pLit out]] else .ok [[nLit out]]
  | .const a, .var y, out =>
      if a then .ok [[nLit y, pLit out], [pLit y, nLit out]]
      else .ok [[pLit y, nLit out], [nLit out]]
  | .var x, .const b, out =>
      if b then .ok [[nLit x, pLit out], [pLit x, nLit out]]
      else .ok [[pLit x, nLit out], [nLit out]]
  | .var x, .var y, out =>
      .ok [[nLit x, nLit y, pLit out], [pLit x, nLit out], [pLit y, nLit out]]
  | _, _, _ => .error .typeError

/-- `gate_or(in1, in2, out)` from `transform.py`.  Note the source's
`(in2)`-constant-true branch returns `(~out) & (~in1|out)`. -/
def gate_or : Operand → Operand → String → Except PyErr Cnf
  | .const a, .const b, out =>
      if !a && !b then .ok [[nLit out]] else .ok [[pLit out]]
  | .const a, .var y, out =>
      if a then .ok [[pLit out], [nLit y, pLit out]]
      else .ok [[pLit y, nLit out], [nLit y, pLit out]]
  | .var x, .const b, out =>
      if b then .ok [[nLit out], [nLit x, pLit out]]
      else .ok [[pLit x, nLit out], [nLit x, pLit out]]
  | .var x, .var y, out =>
      .ok [[pLit x, pLit y, nLit out], [nLit x, pLit out], [nLit y, pLit out]]
  | _, _, _ => .error .typeError

/-- `gate_xor(in1, in2, out)` from `transform.py`. -/
def gate_xor : Operand → Operand → String → Except PyErr Cnf
  | .const a, .const b, out =>
      if a == b then .ok [[nLit out]] else .ok [[pLit out]]
  | .const a, .var y, out =>
      if a then .ok [[nLit y, nLit out], [pLit y, pLit out]]
      else .ok [[pLit y, nLit out], [nLit y, pLit out]]
  | .var x, .const b, out =>
      if b then .ok [[nLit x, nLit out], [pLit x, pLit out]]
      else .ok [[pLit x, nLit out], [nLit x, pLit out]]
  | .var x, .var y, out =>
      .ok [[nLit x, nLit y, nLit out], [pLit x, pLit y, nLit out],
           [pLit x, nLit y, pLit out], [nLit x, pLit y, pLit out]]
  | _, _, _ => .error .typeError

/-! ## The circuit graph (modelled from the spec, `circuit.circuit` is external)

A node is a tagged union over literal constants, variable references, unary
and binary operator applications; compound nodes carry the stable identity
that `node.getID()` exposes.  A circuit exposes its input names, its output
names, and one defining equation per named signal (`getSignals` iterates the
equation keys; outputs are among them). -/

/-- Modelled from the spec: circuit node variants `Literal(bool)`,
`VariableReference(name)`, `UnaryOp(op, child)`, `BinaryOp(op, left, right)`,
with the stable node identity of `getID()` on compound nodes. -/
inductive Node where
  | Literal (b : Bool)
  | Variable (name : String)
  | UnOp (op : String) (id : Nat) (child : Node)
  | BinOp (op : String) (id : Nat) (left right : Node)
deriving DecidableEq

/-- Modelled from the spec: a circuit with input names, output names, and the
defining equations of its named signals (outputs and named internals), in
iteration order. -/
structure Circuit where
  inputs : List String
  outputs : List String
  eqs : List (String × Node)
deriving DecidableEq

/-- `c.getSignals()`: the names carrying defining equations. -/
def getSignals (c : Circuit) : List String := c.eqs.map (·.1)

/-- `c.getEquation(name)`: dictionary lookup, `KeyError` when absent. -/
def getEquation (c : Circuit) (s : String) : Except PyErr Node :=
  match c.eqs.find? (fun se => se.1 == s) with
  | some se => .ok se.2
  | none => .error .keyError

/-- `getID()` of a compound node (only ever taken on `OpNode`s). -/
def nodeID : Node → Nat
  | .UnOp _ i _ => i
  | .BinOp _ i _ _ => i
  | _ => 0

/-! ## `isLiteral` / `getLiteralValue` / `getSatVar` (`transform.py` 112-143)

These recurse through `c.getEquation` on variable references, so they are
given fuel that decreases only on such dictionary jumps; `outOfFuel` models
the nontermination the source exhibits on cyclic circuits. -/

/-- `isLiteral(n, c)` from `transform.py`.  Fuel decreases on every
recursive step (structurally), so the definition reduces; any sufficiently
large fuel computes the source's value on acyclic circuits. -/
def isLiteral : Nat → Node → Circuit → Except PyErr Bool
  | 0, _, _ => .error .outOfFuel
  | f + 1, n, c =>
    match n with
    | .Literal _ => .ok true
    | .Variable v =>
        if v ∈ c.inputs then .ok false
        else
          match getEquation c v with
          | .error e => .error e
          | .ok e => isLiteral f e c
    | .UnOp _ _ ch => isLiteral f ch c
    | .BinOp _ _ l r =>
        match isLiteral f l c with
        | .error e => .error e
        | .ok true => isLiteral f r c
        | .ok false => .ok false

/-- `getLiteralValue(n, c)` from `transform.py` (note: it returns `False` for
input variables, ignores the operator of a `UnOp`, and combines the children
of any `BinOp` with `and`, exactly as the source does).  Fuel decreases on
every recursive step. -/
def getLiteralValue : Nat → Node → Circuit → Except PyErr Bool
  | 0, _, _ => .error .outOfFuel
  | f + 1, n, c =>
    match n with
    | .Literal b => .ok b
    | .Variable v =>
        if v ∈ c.inputs then .ok false
        else
          match getEquation c v with
          | .error e => .error e
          | .ok e => getLiteralValue f e c
    | .UnOp _ _ ch => getLiteralValue f ch c
    | .BinOp _ _ l r =>
        match getLiteralValue f l c with
        | .error e => .error e
        | .ok true => getLiteralValue f r c
        | .ok false => .ok false

/-- `getSatVar(v, c)` from `transform.py`.  The `inputs` and `signals`
dictionaries that `transform` fills are inlined: `inputs` maps each input
name to `SatVar(name)` (unprefixed), `signals` maps each signal name to
`SatVar(prefix + name)`.  When the name is in neither dictionary the Python
function falls off the end and returns `None`. -/
def getSatVar (fuel : Nat) (v : String) (c : Circuit) (pfx : String) :
    Except PyErr Operand :=
  if v ∈ c.inputs then .ok (.var v)
  else if v ∈ getSignals c then
    match isLiteral fuel (.Variable v) c with
    | .error e => .error e
    | .ok true =>
      match getLiteralValue fuel (.Variable v) c with
      | .error e => .error e
      | .ok b => .ok (.const b)
    | .ok false => .ok (.var (pfx ++ v))
  else .ok .pynone

/-! ## `transform_node` and `transform` (`transform.py` 146-206) -/

/-- `transform_node(n, out, c)` from `transform.py`: children are processed
in order (a `Literal` child becomes a boolean constant, a `Variable` child
resolves through `getSatVar`, an `OpNode` child is allocated the synthetic
variable `y_<id>` — unprefixed, exactly `SatVar('y_' + str(child.getID()))` —
and recursively transformed, its CNF accumulating first); then the node's own
gate constraint is appended: a two-child node dispatches on `&`, `|`, `^`, a
one-child node on `~` (an unrecognized operator adds no constraint, as in the
source); a childless `Variable` node is constrained by
`equals(signals[name], out)` (a direct dictionary access: `KeyError` when
`name` is not a signal). -/
def transform_node (fuel : Nat) (n : Node) (out : String) (c : Circuit)
    (pfx : String) : Except PyErr Cnf :=
  match n with
  | .Literal _ => .ok []
  | .Variable v =>
      if v ∈ getSignals c then
        match equals (.var (pfx ++ v)) out with
        | .error e => .error e
        | .ok g => .ok g
      else .error .keyError
  | .UnOp op _ ch =>
      match ((match ch with
             | .Literal b => .ok (([] : Cnf), Operand.const b)
             | .Variable v =>
                 match getSatVar fuel v c pfx with
                 | .error e => .error e
                 | .ok o => .ok ([], o)
             | _ =>
                 match transform_node fuel ch ("y_" ++ toString (nodeID ch)) c pfx with
                 | .error e => .error e
                 | .ok f => .ok (f, .var ("y_" ++ toString (nodeID ch)))) :
             Except PyErr (Cnf × Operand)) with
      | .error e => .error e
      | .ok (f1, o1) =>
        if op = "~" then
          match gate_not o1 out with
          | .error e => .error e
          | .ok g => .ok (f1 ++ g)
        else .ok f1
  | .BinOp op _ l r =>
      match ((match l with
             | .Literal b => .ok (([] : Cnf), Operand.const b)
             | .Variable v =>
                 match getSatVar fuel v c pfx with
                 | .error e => .error e
                 | .ok o => .ok ([], o)
             | _ =>
                 match transform_node fuel l ("y_" ++ toString (nodeID l)) c pfx with
                 | .error e => .error e
                 | .ok f => .ok (f, .var ("y_" ++ toString (nodeID l)))) :
             Except PyErr (Cnf × Operand)) with
      | .error e => .error e
      | .ok (f1, o1) =>
        match ((match r with
               | .Literal b => .ok (([] : Cnf), Operand.const b)
               | .Variable v =>
                   match getSatVar fuel v c pfx with
                   | .error e => .error e
                   | .ok o => .ok ([], o)
               | _ =>
                   match transform_node fuel r ("y_" ++ toString (nodeID r)) c pfx with
                   | .error e => .error e
                   | .ok f => .ok (f, .var ("y_" ++ toString (nodeID r)))) :
               Except PyErr (Cnf × Operand)) with
        | .error e => .error e
        | .ok (f2, o2) =>
          if op = "&" then
            match gate_and o1 o2 out with
            | .error e => .error e
            | .ok g => .ok (f1 ++ f2 ++ g)
          else if op = "|" then
            match gate_or o1 o2 out with
            | .error e => .error e
            | .ok g => .ok (f1 ++ f2 ++ g)
          else if op = "^" then
            match gate_xor o1 o2 out with
            | .error e => .error e
            | .ok g => .ok (f1 ++ f2 ++ g)
          else .ok (f1 ++ f2)

/-- The child-processing step of `transform_node`'s loop, as a standalone
abbreviation for stating lemmas (definitionally the inner match above). -/
def childPart (fuel : Nat) (ch : Node) (c : Circuit) (pfx : String) :
    Except PyErr (Cnf × Operand) :=
  match ch with
  | .Literal b => .ok (([] : Cnf), Operand.const b)
  | .Variable v =>
      match getSatVar fuel v c pfx with
      | .error e => .error e
      | .ok o => .ok ([], o)
  | _ =>
      match transform_node fuel ch ("y_" ++ toString (nodeID ch)) c pfx with
      | .error e => .error e
      | .ok f => .ok (f, .var ("y_" ++ toString (nodeID ch)))

/-- The signal loop of `transform`: for each signal in iteration order, look
up its equation and conjoin `transform_node(node, signals[sig])` onto the
accumulated CNF. -/
def transformGo (fuel : Nat) (c : Circuit) (pfx : String) :
    List (String × Node) → Cnf → Except PyErr Cnf
  | [], acc => .ok acc
  | (s, _) :: rest, acc =>
      match getEquation c s with
      | .error e => .error e
      | .ok node =>
        match transform_node fuel node (pfx ++ s) c pfx with
        | .error e => .error e
        | .ok f => transformGo fuel c pfx rest (acc ++ f)

/-- `transform(c, prefix)` from `transform.py`: fill the `inputs` dictionary
with unprefixed input variables and the `signals` dictionary with prefixed
signal variables (both inlined into `getSatVar`/`transform_node`), then fold
`transform_node` over all signals. -/
def transform (fuel : Nat) (c : Circuit) (pfx : String) : Except PyErr Cnf :=
  transformGo fuel c pfx c.eqs []

/-! ## `ec.py`: miter construction and the equivalence check -/

/-- A satisfiability-oracle answer, modelled from the spec: a `Solution` is a
mapping from variable name to boolean (queryable by name); `none` is the
definitive "unsatisfiable" answer. -/
abbrev Sol := List (String × Bool)

/-- First loop of `createMiter` (`ec.py` 73-77): for each output allocate
`m_<i>` constrained to the XOR of the two prefixed copies, collecting the
clause list and the `m_<i>` names. -/
def miterXorLoop (outs : List String) (p1 p2 : String) (i : Nat) :
    Except PyErr (Cnf × List String) :=
  match outs with
  | [] => .ok ([], [])
  | o :: rest =>
      match gate_xor (.var (p1 ++ o)) (.var (p2 ++ o)) ("m_" ++ toString i) with
      | .error e => .error e
      | .ok g =>
        match miterXorLoop rest p1 p2 (i + 1) with
        | .error e => .error e
        | .ok (f, sigs) => .ok (g ++ f, ("m_" ++ toString i) :: sigs)

/-- Second loop of `createMiter` (`ec.py` 79-90): fold the `m_<i>` through an
OR chain seeded from `or_neutral`; the running `out` local is only assigned
inside the loop body, so it is threaded as an `Option`. -/
def miterOrLoop (msigs : List String) (i : Nat) (outAcc : Option String) :
    Except PyErr (Cnf × Option String) :=
  match msigs with
  | [] => .ok ([], outAcc)
  | m :: rest =>
      let outv := "or_" ++ toString i
      let prev := if i = 0 then "or_neutral" else "or_" ++ toString (i - 1)
      match gate_or (.var prev) (.var m) outv with
      | .error e => .error e
      | .ok g =>
        match miterOrLoop rest (i + 1) (some outv) with
        | .error e => .error e
        | .ok (f, fin) => .ok (g ++ f, fin)

/-- `createMiter(outputs, prefix1, prefix2)` from `ec.py`: XOR differences,
the `~or_neutral` unit, the OR chain; `return comparator, out` raises
`UnboundLocalError` when the OR loop never ran (empty output set). -/
def createMiter (outs : List String) (p1 p2 : String) :
    Except PyErr (Cnf × String) :=
  match miterXorLoop outs p1 p2 0 with
  | .error e => .error e
  | .ok (xorCnf, msigs) =>
    match miterOrLoop msigs 0 none with
    | .error e => .error e
    | .ok (orCnf, outOpt) =>
      match outOpt with
      | none => .error .unboundLocal
      | some o => .ok (xorCnf ++ [[nLit "or_neutral"]] ++ orCnf, o)

/-- `binrow(num, n)` from `ec.py`: the `n`-bit big-endian binary row of
`num`, built by inserting the low bit at the front each iteration. -/
def binrow (num n : Nat) : List Bool :=
  go num n []
where
  go : Nat → Nat → List Bool → List Bool
    | _, 0, tab => tab
    | fat, k + 1, tab => go (fat / 2) k ((fat % 2 != 0) :: tab)

/-- `createTests(inputs)` from `ec.py`: all `2^n` assignments of the input
names, each a row pairing the inputs with a binary row. -/
def createTests (ins : List String) : List (List (String × Bool)) :=
  (List.range (2 ^ ins.length)).map (fun i => ins.zip (binrow i ins.length))

/-- `setInputs(cnf, values, prefix1, prefix2)` from `ec.py`: the loop body
assigns `setCnf = cnf & (...)` — starting from `cnf`, not from the running
`setCnf` — so each iteration discards the previous one; the initial value of
`setCnf` is the empty `Cnf()`. -/
def setInputs (cnf : Cnf) (values : List (String × Bool)) (p1 p2 : String) :
    Cnf :=
  values.foldl
    (fun _ vb =>
      if vb.2 = false then
        cnf ++ [[nLit (p1 ++ vb.1)], [nLit (p2 ++ vb.1)]]
      else
        cnf ++ [[pLit (p1 ++ vb.1)], [pLit (p2 ++ vb.1)]])
    []

/-- The test loop of `check` (`ec.py` 150-156): solve each test CNF in turn,
returning `(False, solution)` on the first satisfiable one, else fall through
to `(True, None)`. -/
def checkLoop (solve : Cnf → Option Sol) (miter : Cnf)
    (tests : List (List (String × Bool))) (p1 p2 : String) :
    Bool × Option Sol :=
  match tests with
  | [] => (true, none)
  | t :: rest =>
      match solve (setInputs miter t p1 p2) with
      | some s => (false, some s)
      | none => checkLoop solve miter rest p1 p2

/-- Python set difference `a - b` on name sets (lists with distinct
elements). -/
def pySetDiff (a b : List String) : List String :=
  a.filter (fun x => !(b.contains x))

/-- `check(c1, c2)` from `ec.py`, parameterized by the satisfiability oracle
`solve` (modelled from the spec as sound and complete; a `Solution` object is
truthy).  Interface check, two Tseitin transforms under prefixes `c1_`/`c2_`,
miter composition with the `(~out)` unit, then one oracle query per generated
test vector. -/
def check (solve : Cnf → Option Sol) (fuel : Nat) (c1 c2 : Circuit) :
    Except PyErr (Bool × Option Sol) :=
  if c1.inputs.length ≠ c2.inputs.length ∨
     c1.outputs.length ≠ c2.outputs.length then .ok (false, none)
  else if (pySetDiff c1.inputs c2.inputs).length ≠ 0 ∨
          (pySetDiff c1.outputs c2.outputs).length ≠ 0 then .ok (false, none)
  else
    match transform fuel c1 "c1_" with
    | .error e => .error e
    | .ok cnf1 =>
      match transform fuel c2 "c2_" with
      | .error e => .error e
      | .ok cnf2 =>
        match createMiter c1.outputs "c1_" "c2_" with
        | .error e => .error e
        | .ok (comp, out) =>
          let miter := cnf1 ++ cnf2 ++ comp ++ [[nLit out]]
          .ok (checkLoop solve miter (createTests c1.inputs) "c1_" "c2_")

/-- Number of oracle queries the test loop of `check` issues. -/
def loopCalls (solve : Cnf → Option Sol) (miter : Cnf)
    (tests : List (List (String × Bool))) (p1 p2 : String) : Nat :=
  match tests with
  | [] => 0
  | t :: rest =>
      match solve (setInputs miter t p1 p2) with
      | some _ => 1
      | none => 1 + loopCalls solve miter rest p1 p2

/-- Number of oracle queries `check` issues (instrumentation of `check`:
same control flow, counting `solve` invocations; paths that return or raise
before reaching the solver issue none). -/
def checkCalls (solve : Cnf → Option Sol) (fuel : Nat) (c1 c2 : Circuit) :
    Nat :=
  if c1.inputs.length ≠ c2.inputs.length ∨
     c1.outputs.length ≠ c2.outputs.length then 0
  else if (pySetDiff c1.inputs c2.inputs).length ≠ 0 ∨
          (pySetDiff c1.outputs c2.outputs).length ≠ 0 then 0
  else
    match transform fuel c1 "c1_" with
    | .error _ => 0
    | .ok cnf1 =>
      match transform fuel c2 "c2_" with
      | .error _ => 0
      | .ok cnf2 =>
        match createMiter c1.outputs "c1_" "c2_" with
        | .error _ => 0
        | .ok (comp, out) =>
          let miter := cnf1 ++ cnf2 ++ comp ++ [[nLit out]]
          loopCalls solve miter (createTests c1.inputs) "c1_" "c2_"

/-! ## A concrete satisfiability oracle

Modelled from the spec: the oracle is an external collaborator assumed sound
and complete; this concrete instance enumerates assignments of the variables
occurring in the formula. -/

/-- The variables of a CNF, in order of occurrence. -/
def cnfVarList (f : Cnf) : List String :=
  f.flatMap (fun cl => cl.map (·.var))

/-- Look a name up in an association list, defaulting to `false`. -/
def lookupD (a : Sol) (x : String) : Bool :=
  match a.find? (fun p => p.1 == x) with
  | some p => p.2
  | none => false

/-- The assignment of the given variables encoded by the bits of `i`. -/
def mkAssign (vars : List String) (i : Nat) : Sol :=
  (vars.enum).map (fun p => (p.2, i.testBit p.1))

/-- Try assignment indices `i, i+1, ...` for at most `fuel` steps. -/
def searchFrom (f : Cnf) (vars : List String) : Nat → Nat → Option Sol
  | _, 0 => none
  | i, fl + 1 =>
      let a := mkAssign vars i
      if Cnf.holds (lookupD a) f then some a else searchFrom f vars (i + 1) fl

/-- Modelled from the spec: a sound satisfiability oracle — enumerate all
assignments of the formula's variables, returning the first satisfying one. -/
def bruteSolve (f : Cnf) : Option Sol :=
  let vars := (cnfVarList f).dedup
  searchFrom f vars 0 (2 ^ vars.length)

/-! ## Reference semantics (modelled from the spec: direct circuit evaluation)

`evalNode` is the truth-table meaning of a node; `circuitEnv` folds the
defining equations in iteration order over an input assignment, which on
topologically ordered (acyclic) circuits is exactly "direct evaluation". -/

/-- Modelled from the spec: the boolean value a node denotes under an
environment giving every referenced name a value. -/
def evalNode (env : String → Bool) : Node → Bool
  | .Literal b => b
  | .Variable v => env v
  | .UnOp _ _ ch => !(evalNode env ch)
  | .BinOp op _ l r =>
      if op = "&" then evalNode env l && evalNode env r
      else if op = "|" then evalNode env l || evalNode env r
      else if op = "^" then xor (evalNode env l) (evalNode env r)
      else false

/-- Fold defining equations over an environment, giving each signal the value
of its equation in the environment built so far. -/
def envFold (l : List (String × Node)) (env0 : String → Bool) :
    String → Bool :=
  l.foldl (fun env se => fun x => if x = se.1 then evalNode env se.2 else env x)
    env0

/-- Modelled from the spec: direct evaluation of a circuit on an input
assignment — inputs keep their `I` values, each signal gets its equation's
value, in equation order. -/
def circuitEnv (c : Circuit) (I : String → Bool) : String → Bool :=
  envFold c.eqs I

/-! ## Well-formed circuits

The exactness theorem for `transform` holds on circuits that are acyclic
(equations in topological order), use only the supported operators, contain
no `Literal` constant nodes (the source's constant-folding path is refuted
separately in claim C2's counterexample), and whose CNF-level names cannot
collide. -/

/-- The variable names referenced by a node. -/
def nodeVars : Node → List String
  | .Literal _ => []
  | .Variable v => [v]
  | .UnOp _ _ ch => nodeVars ch
  | .BinOp _ _ l r => nodeVars l ++ nodeVars r

/-- All compound-node identities occurring in a node (top included). -/
def nodeIds : Node → List Nat
  | .Literal _ => []
  | .Variable _ => []
  | .UnOp _ i ch => i :: nodeIds ch
  | .BinOp _ i l r => i :: (nodeIds l ++ nodeIds r)

/-- All compound subnodes of a node (top included), in the same order as
`nodeIds`. -/
def opSubs : Node → List Node
  | .Literal _ => []
  | .Variable _ => []
  | .UnOp o i ch => .UnOp o i ch :: opSubs ch
  | .BinOp o i l r => .BinOp o i l r :: (opSubs l ++ opSubs r)

/-- A node containing no `Literal` constant. -/
def litFree : Node → Bool
  | .Literal _ => false
  | .Variable _ => true
  | .UnOp _ _ ch => litFree ch
  | .BinOp _ _ l r => litFree l && litFree r

/-- A node using only the supported operators. -/
def opsOK : Node → Bool
  | .Literal _ => true
  | .Variable _ => true
  | .UnOp op _ ch => (op == "~") && opsOK ch
  | .BinOp op _ l r => (op == "&" || op == "|" || op == "^") && opsOK l && opsOK r

/-- A top-level equation node that is a bare variable reference must name a
signal (the source accesses `signals[name]` directly there). -/
def topOK : Node → Circuit → Bool
  | .Variable v, c => (getSignals c).contains v
  | _, _ => true

/-- Every variable referenced by `n` is an input or an already-defined
name. -/
def scopedB (ins D : List String) (n : Node) : Bool :=
  (nodeVars n).all (fun v => ins.contains v || D.contains v)

/-- The equations are topologically ordered: each references only inputs and
earlier signals. -/
def topoB (ins : List String) : List String → List (String × Node) → Bool
  | _, [] => true
  | D, (s, e) :: rest => scopedB ins D e && topoB ins (D ++ [s]) rest

/-- All compound-node identities of a circuit. -/
def allIds (c : Circuit) : List Nat :=
  c.eqs.flatMap (fun se => nodeIds se.2)

/-- Every CNF variable name `transform` can produce for a well-formed
circuit: raw input names, prefixed signal names, synthetic `y_<id>` names. -/
def allCnfNames (c : Circuit) (p : String) : List String :=
  c.inputs ++ (getSignals c).map (fun s => p ++ s) ++
    (allIds c).map (fun i => "y_" ++ toString i)

/-- Well-formedness of a circuit for the exactness theorem: no CNF-name
collisions, inputs disjoint from signals, topologically ordered equations,
and every equation literal-free with supported operators and a signal-naming
top. -/
@[reducible] def Wf (c : Circuit) (p : String) : Prop :=
  (allCnfNames c p).Nodup ∧
  (∀ v ∈ c.inputs, v ∉ getSignals c) ∧
  topoB c.inputs [] c.eqs = true ∧
  (∀ se ∈ c.eqs, litFree se.2 = true ∧ opsOK se.2 = true ∧ topOK se.2 c = true)

/-- The reference satisfying assignment of a transformed circuit: inputs get
their `I` values, prefixed signals their direct-evaluation values, synthetic
`y_<id>` variables the value of the compound node they stand for. -/
def sigmaPairs (c : Circuit) (p : String) (I : String → Bool) : Sol :=
  c.inputs.map (fun i => (i, I i)) ++
    (getSignals c).map (fun s => (p ++ s, circuitEnv c I s)) ++
    c.eqs.flatMap (fun se =>
      (opSubs se.2).map (fun m =>
        ("y_" ++ toString (nodeID m), evalNode (circuitEnv c I) m)))

/-- The reference assignment as a function. -/
def sigmaStar (c : Circuit) (p : String) (I : String → Bool) :
    String → Bool :=
  lookupD (sigmaPairs c p I)

/-! ## Concrete circuits used by the claim theorems -/

/-- The spec's full adder: `s = a⊕b⊕cin`, `cout = (a∧b)∨((a⊕b)∧cin)`. -/
def fullAdder : Circuit :=
  { inputs := ["a", "b", "cin"]
    outputs := ["s", "cout"]
    eqs := [("s", .BinOp "^" 0 (.BinOp "^" 1 (.Variable "a") (.Variable "b"))
                    (.Variable "cin")),
            ("cout", .BinOp "|" 2 (.BinOp "&" 3 (.Variable "a") (.Variable "b"))
                       (.BinOp "&" 4
                         (.BinOp "^" 5 (.Variable "a") (.Variable "b"))
                         (.Variable "cin")))] }

/-- A buffer circuit: `o = a ∧ a`. -/
def cBufA : Circuit :=
  ⟨["a"], ["o"], [("o", .BinOp "&" 20 (.Variable "a") (.Variable "a"))]⟩

/-- An inverter circuit: `o = ¬(a ∧ a)`; disagrees with `cBufA` on every
input. -/
def cInvA : Circuit :=
  ⟨["a"], ["o"],
   [("o", .UnOp "~" 21 (.BinOp "&" 22 (.Variable "a") (.Variable "a")))]⟩

/-- A circuit with a constant-valued named signal referenced through a NOT:
`t = ¬true`, `o = t ∧ a`. -/
def cConstNot : Circuit :=
  ⟨["a"], ["o"],
   [("t", .UnOp "~" 30 (.Literal true)),
    ("o", .BinOp "&" 31 (.Variable "t") (.Variable "a"))]⟩

/-- A circuit whose single equation references the name `ghost`, which is
neither an input nor a signal. -/
def cGhost : Circuit :=
  ⟨["a"], ["s"], [("s", .UnOp "~" 40 (.Variable "ghost"))]⟩

/-- A circuit whose equation contains the same shared subexpression (same
node identity 51) under both children of the top conjunction. -/
def cShared : Circuit :=
  ⟨["a", "b"], ["o"],
   [("o", .BinOp "&" 50 (.BinOp "|" 51 (.Variable "a") (.Variable "b"))
                        (.BinOp "|" 51 (.Variable "a") (.Variable "b")))]⟩

/-- The depth-`d` chain of shared conjunctions: node `d` is the conjunction
of two occurrences of node `d-1`; `d+1` distinct node identities in total. -/
def chainN : Nat → Node
  | 0 => .BinOp "&" 0 (.Variable "a") (.Variable "b")
  | d + 1 => .BinOp "&" (d + 1) (chainN d) (chainN d)

/-- The circuit computing the depth-`d` shared chain. -/
def chainC (d : Nat) : Circuit := ⟨["a", "b"], ["o"], [("o", chainN d)]⟩

/-- A two-input, one-output circuit (`o = a ∧ b`), interface partner for the
interface-mismatch scenario. -/
def cAnd2 : Circuit :=
  ⟨["a", "b"], ["o"], [("o", .BinOp "&" 60 (.Variable "a") (.Variable "b"))]⟩

/-- A three-input, one-output circuit, interface-mismatched with `cAnd2`. -/
def cAnd3 : Circuit :=
  ⟨["a", "b", "c"], ["o"],
   [("o", .BinOp "&" 61 (.BinOp "&" 62 (.Variable "a") (.Variable "b"))
                        (.Variable "c"))]⟩

/-- Proof-side normal form of `miterOrLoop` (which never raises). -/
def miterOrPure (msigs : List String) (i : Nat) (outAcc : Option String) :
    Cnf × Option String :=
  match msigs with
  | [] => ([], outAcc)
  | m :: rest =>
      ([[pLit (if i = 0 then "or_neutral" else "or_" ++ toString (i - 1)),
         pLit m, nLit ("or_" ++ toString i)],
        [nLit (if i = 0 then "or_neutral" else "or_" ++ toString (i - 1)),
         pLit ("or_" ++ toString i)],
        [nLit m, pLit ("or_" ++ toString i)]]
         ++ (miterOrPure rest (i + 1) (some ("or_" ++ toString i))).1,
       (miterOrPure rest (i + 1) (some ("or_" ++ toString i))).2)

/-- The satisfying assignment exhibited against claim C2. -/
def sigmaCx : String → Bool :=
  fun x => if x = "a" then true else if x = "o" then true else false

/-- The names `transform` may legitimately emit: raw inputs, prefixed
signals, synthetic `y_<id>`. -/
def varOK (c : Circuit) (p : String) (v : String) : Prop :=
  v ∈ c.inputs ∨ (∃ s ∈ getSignals c, v = p ++ s) ∨
    ∃ i : Nat, v = "y_" ++ toString i

/-- Height of a node's expression tree. -/
def nodeHeight : Node → Nat
  | .Literal _ => 0
  | .Variable _ => 0
  | .UnOp _ _ ch => nodeHeight ch + 1
  | .BinOp _ _ l r => max (nodeHeight l) (nodeHeight r) + 1

/-- The largest equation height of a circuit. -/
def maxEqHeight (c : Circuit) : Nat :=
  (c.eqs.map (fun se => nodeHeight se.2)).foldr max 0

/-- Proof-side normal form of `miterXorLoop` (which never raises: all its
gate operands are variables). -/
def miterXorPure (outs : List String) (p1 p2 : String) (i : Nat) :
    Cnf × List String :=
  match outs with
  | [] => ([], [])
  | o :: rest =>
      ([[nLit (p1 ++ o), nLit (p2 ++ o), nLit ("m_" ++ toString i)],
        [pLit (p1 ++ o), pLit (p2 ++ o), nLit ("m_" ++ toString i)],
        [pLit (p1 ++ o), nLit (p2 ++ o), pLit ("m_" ++ toString i)],
        [nLit (p1 ++ o), pLit (p2 ++ o), pLit ("m_" ++ toString i)]]
         ++ (miterXorPure rest p1 p2 (i + 1)).1,
       ("m_" ++ toString i) :: (miterXorPure rest p1 p2 (i + 1)).2)

/-! ## Helper lemmas for the miter loops -/

theorem miterXorLoop_eq (outs : List String) (p1 p2 : String) :
    ∀ i, miterXorLoop outs p1 p2 i = .ok (miterXorPure outs p1 p2 i) := by
  induction outs with
  | nil => intro i; rfl
  | cons o rest ih =>
      intro i
      simp only [miterXorLoop, gate_xor, ih (i + 1), miterXorPure]

theorem miterOrLoop_eq (msigs : List String) :
    ∀ i outAcc, miterOrLoop msigs i outAcc = .ok (miterOrPure msigs i outAcc) := by
  induction msigs with
  | nil => intro i acc; rfl
  | cons m rest ih =>
      intro i acc
      simp only [miterOrLoop, gate_or, ih, miterOrPure]

theorem miterOrPure_snd_some (msigs : List String) :
    ∀ i acc, msigs ≠ [] → ∃ o, (miterOrPure msigs i acc).2 = some o := by
  induction msigs with
  | nil => intro i acc h; exact absurd rfl h
  | cons m rest ih =>
      intro i acc _
      by_cases hr : rest = []
      · subst hr; exact ⟨"or_" ++ toString i, rfl⟩
      · obtain ⟨o, ho⟩ := ih (i + 1) (some ("or_" ++ toString i)) hr
        exact ⟨o, ho⟩

/-! ## Claim theorems (part 1): concrete refutations and confirmations -/

/-- Claim C10: for every pair of prefixes, `createMiter` applied to an empty
output-name set fails with the unbound-local error (its `out` local is never
assigned) instead of returning a CNF and miter variable, and it returns
normally for any non-empty output-name set. -/
theorem C10_createMiter_empty_unbound :
    (∀ p1 p2, createMiter [] p1 p2 = .error .unboundLocal) ∧
    (∀ outs p1 p2, outs ≠ [] → ∃ f o, createMiter outs p1 p2 = .ok (f, o)) := by
  constructor
  · intro p1 p2; rfl
  · intro outs p1 p2 h
    have hxs : (miterXorPure outs p1 p2 0).2 ≠ [] := by
      cases outs with
      | nil => exact absurd rfl h
      | cons a rest => simp [miterXorPure]
    obtain ⟨o, ho⟩ := miterOrPure_snd_some (miterXorPure outs p1 p2 0).2 0 none hxs
    refine ⟨(miterXorPure outs p1 p2 0).1 ++ [[nLit "or_neutral"]] ++
              (miterOrPure (miterXorPure outs p1 p2 0).2 0 none).1, o, ?_⟩
    show ((match miterXorLoop outs p1 p2 0 with
      | .error e => .error e
      | .ok (xorCnf, msigs) =>
        match miterOrLoop msigs 0 none with
        | .error e => .error e
        | .ok (orCnf, outOpt) =>
          match outOpt with
          | none => .error PyErr.unboundLocal
          | some o => .ok (xorCnf ++ [[nLit "or_neutral"]] ++ orCnf, o)) :
      Except PyErr (Cnf × String)) = _
    rw [miterXorLoop_eq]
    show ((match miterOrLoop (miterXorPure outs p1 p2 0).2 0 none with
      | .error e => .error e
      | .ok (orCnf, outOpt) =>
        match outOpt with
        | none => .error PyErr.unboundLocal
        | some o => .ok ((miterXorPure outs p1 p2 0).1 ++ [[nLit "or_neutral"]]
            ++ orCnf, o)) : Except PyErr (Cnf × String)) = _
    rw [miterOrLoop_eq]
    show ((match (miterOrPure (miterXorPure outs p1 p2 0).2 0 none).2 with
      | none => Except.error PyErr.unboundLocal
      | some o => .ok ((miterXorPure outs p1 p2 0).1 ++ [[nLit "or_neutral"]]
          ++ (miterOrPure (miterXorPure outs p1 p2 0).2 0 none).1, o)) :
      Except PyErr (Cnf × String)) = _
    rw [ho]

/-- Witness for C10 at a concrete input: one output name. -/
theorem C10_witness :
    (["o"] : List String) ≠ [] ∧
      ∃ f o, createMiter ["o"] "c1_" "c2_" = .ok (f, o) :=
  ⟨by decide, C10_createMiter_empty_unbound.2 ["o"] "c1_" "c2_" (by decide)⟩

/-- Claim C9: `setInputs(f, values, p1, p2)` returns `f` conjoined with the
unit constraints for only the last entry of `values`, discarding the
constraints built for every earlier entry (the loop restarts from `cnf` on
each iteration), so a test vector of any length contributes the unit clauses
of a single input name. -/
theorem C9_setInputs_keeps_only_last (cnf : Cnf)
    (vs : List (String × Bool)) (v : String) (b : Bool) (p1 p2 : String) :
    setInputs cnf (vs ++ [(v, b)]) p1 p2 =
      cnf ++ (if b = false then [[nLit (p1 ++ v)], [nLit (p2 ++ v)]]
              else [[pLit (p1 ++ v)], [pLit (p2 ++ v)]]) := by
  cases b <;> simp [setInputs, List.foldl_append]

/-- Claim C8 counterexample: the name `ghost` is absent from both the input
set and the signal set of `cGhost`, yet `getSatVar` resolves it without any
fatal condition — it returns Python `None` (whereas the claim asserts the
resolution raises a fatal `UnresolvedReference` aborting the transform). -/
theorem C8_counterexample :
    ("ghost" ∉ cGhost.inputs) ∧ ("ghost" ∉ getSignals cGhost) ∧
      getSatVar 10 "ghost" cGhost "" = .ok Operand.pynone :=
  ⟨by decide, by decide, by rfl⟩

/-- Claim C8 (amended): resolving a variable reference absent from both sets
silently yields `None`; the transform then aborts only later, with a
`TypeError`, when that `None` operand reaches a gate encoder. -/
theorem C8_amended_none_then_typeError :
    getSatVar 10 "ghost" cGhost "" = .ok Operand.pynone ∧
      transform 10 cGhost "" = .error .typeError :=
  ⟨by rfl, by rfl⟩

/-- Claim C6 counterexample: in `cShared` the shared disjunction (node
identity 51) is reachable from two parents, and `transform` emits its clause
group twice — the clause `(a ∨ b ∨ ¬y_51)` occurs twice in the result — so a
compound node is recursively transformed once per occurrence, not once per
invocation. -/
theorem C6_counterexample :
    (transform 10 cShared "").map
        (fun f => f.count [pLit "a", pLit "b", nLit "y_51"]) = .ok 2 := by
  rfl

/-- Claim C4 counterexample: with the non-empty prefix `c1_`, the CNF of
`cBufA` contains the variable `a` (the raw input name), which does not begin
with the prefix. -/
theorem C4_counterexample :
    (transform 10 cBufA "c1_").map
        (fun f => (cnfVarList f).contains "a") = .ok true ∧
      "a".startsWith "c1_" = false :=
  ⟨by rfl, by decide⟩

/-- Claim C2 counterexample: for `cConstNot` (`t = ¬true`, `o = t ∧ a`) and
the empty prefix, the transformed CNF has a satisfying assignment that sets
the input `a` to `true` and the output signal `o` to `true`, while direct
evaluation of the circuit with `a = true` gives `o = false` — the
constant-folding path (`isLiteral`/`getLiteralValue`) ignores the NOT. -/
theorem C2_counterexample :
    (transform 10 cConstNot "").map (Cnf.holds sigmaCx) = .ok true ∧
      sigmaCx "a" = true ∧ sigmaCx "o" = true ∧
      circuitEnv cConstNot (fun _ => true) "o" = false :=
  ⟨by rfl, by rfl, by rfl, by rfl⟩

/-- Claim C1: checking the spec's full adder against itself does NOT report
Equivalent — `check` returns verdict `False` together with a (spurious)
solution, because the composed formula asserts the miter output false
(`& (~out)`, where the source's own comment says to force it to 1) and the
per-test input constraints bind fresh prefixed variables absent from the
transformed circuits.  The first component below is the verdict, the second
whether a solution is attached. -/
theorem C1_check_self_full_adder_not_equivalent :
    (check bruteSolve 10 fullAdder fullAdder).map
        (fun r => (r.1, r.2.isSome)) = .ok (false, true) := by
  rfl

/-- Claim C3 counterexample: `cBufA` and `cInvA` pass the interface check,
yet `check` issues two oracle queries (one per enumerated input vector), not
exactly one; it also reports them equivalent although they differ on every
input. -/
theorem C3_counterexample :
    checkCalls bruteSolve 10 cBufA cInvA = 2 ∧
      check bruteSolve 10 cBufA cInvA = .ok (true, none) :=
  ⟨by rfl, by rfl⟩

/-- Claim C5: the `gate_or` encoder with a constant-`true` second operand
emits `(~out) ∧ (~in1 ∨ out)`, whose satisfying assignments are exactly
`out = false, in1 = false` — but the OR truth table gives `out = true` when
an operand is constant true, so the encoder contradicts the gate's truth
table on this input (the symmetric constant-`true` first operand branch is
correct). -/
theorem C5_gate_or_const_true_divergence :
    gate_or (.var "x") (.const true) "o" =
        .ok [[nLit "o"], [nLit "x", pLit "o"]] ∧
      (∀ σ : String → Bool,
        Cnf.holds σ [[nLit "o"], [nLit "x", pLit "o"]] = true ↔
          (σ "o" = false ∧ σ "x" = false)) ∧
      (∀ b : Bool, (b || true) = true) := by
  refine ⟨rfl, ?_, by simp⟩
  intro σ
  cases hx : σ "x" <;> cases ho : σ "o" <;>
    simp [Cnf.holds, Clause.holds, Lit.holds, pLit, nLit, hx, ho]


/-! ## Basic lemmas: CNF satisfaction, gate exactness on variables -/

theorem holds_append (σ : String → Bool) (f1 f2 : Cnf) :
    Cnf.holds σ (f1 ++ f2) = (Cnf.holds σ f1 && Cnf.holds σ f2) := by
  simp [Cnf.holds, List.all_append]

theorem holds_equals_vv (σ : String → Bool) (x o : String) :
    Cnf.holds σ [[nLit x, pLit o], [pLit x, nLit o]] = true ↔ σ o = σ x := by
  cases hx : σ x <;> cases ho : σ o <;>
    simp [Cnf.holds, Clause.holds, Lit.holds, pLit, nLit, hx, ho]

theorem holds_not_vv (σ : String → Bool) (x o : String) :
    Cnf.holds σ [[nLit x, nLit o], [pLit x, pLit o]] = true ↔ σ o = !(σ x) := by
  cases hx : σ x <;> cases ho : σ o <;>
    simp [Cnf.holds, Clause.holds, Lit.holds, pLit, nLit, hx, ho]

theorem holds_and_vv (σ : String → Bool) (x y o : String) :
    Cnf.holds σ [[nLit x, nLit y, pLit o], [pLit x, nLit o], [pLit y, nLit o]]
        = true ↔ σ o = (σ x && σ y) := by
  cases hx : σ x <;> cases hy : σ y <;> cases ho : σ o <;>
    simp [Cnf.holds, Clause.holds, Lit.holds, pLit, nLit, hx, hy, ho]

theorem holds_or_vv (σ : String → Bool) (x y o : String) :
    Cnf.holds σ [[pLit x, pLit y, nLit o], [nLit x, pLit o], [nLit y, pLit o]]
        = true ↔ σ o = (σ x || σ y) := by
  cases hx : σ x <;> cases hy : σ y <;> cases ho : σ o <;>
    simp [Cnf.holds, Clause.holds, Lit.holds, pLit, nLit, hx, hy, ho]

theorem holds_xor_vv (σ : String → Bool) (x y o : String) :
    Cnf.holds σ [[nLit x, nLit y, nLit o], [pLit x, pLit y, nLit o],
                 [pLit x, nLit y, pLit o], [nLit x, pLit y, pLit o]]
        = true ↔ σ o = xor (σ x) (σ y) := by
  cases hx : σ x <;> cases hy : σ y <;> cases ho : σ o <;>
    simp [Cnf.holds, Clause.holds, Lit.holds, pLit, nLit, hx, hy, ho]

/-! ## Association-list and dictionary lemmas -/

theorem lookupD_of_mem (l : Sol) (k : String) (b : Bool)
    (hnd : (l.map Prod.fst).Nodup) (hmem : (k, b) ∈ l) : lookupD l k = b := by
  induction l with
  | nil => cases hmem
  | cons hd tl ih =>
      have hnd' : (hd.1 :: tl.map Prod.fst).Nodup := by simpa using hnd
      obtain ⟨hnotin, hndtl⟩ := List.nodup_cons.mp hnd'
      rcases List.mem_cons.mp hmem with hh | ht
      · subst hh
        simp [lookupD]
      · have hk : k ∈ tl.map Prod.fst := List.mem_map.mpr ⟨(k, b), ht, rfl⟩
        have hne : (hd.1 == k) = false :=
          beq_eq_false_iff_ne.mpr (fun hkk => hnotin (hkk ▸ hk))
        simp only [lookupD, List.find?, hne]
        exact ih hndtl ht

theorem find?_key_of_mem_nodup (l : List (String × Node)) (s : String)
    (e : Node) (hnd : (l.map (·.1)).Nodup) (hmem : (s, e) ∈ l) :
    l.find? (fun se => se.1 == s) = some (s, e) := by
  induction l with
  | nil => cases hmem
  | cons hd tl ih =>
      have hnd' : (hd.1 :: tl.map (·.1)).Nodup := by simpa using hnd
      obtain ⟨hnotin, hndtl⟩ := List.nodup_cons.mp hnd'
      rcases List.mem_cons.mp hmem with hh | ht
      · subst hh
        simp [List.find?]
      · have hk : s ∈ tl.map (·.1) := List.mem_map.mpr ⟨(s, e), ht, rfl⟩
        have hne : (hd.1 == s) = false :=
          beq_eq_false_iff_ne.mpr (fun hkk => hnotin (hkk ▸ hk))
        simp only [List.find?, hne]
        exact ih hndtl ht

theorem getEquation_of_mem (c : Circuit) (s : String) (e : Node)
    (hnd : (getSignals c).Nodup) (hmem : (s, e) ∈ c.eqs) :
    getEquation c s = .ok e := by
  rw [getEquation, find?_key_of_mem_nodup c.eqs s e hnd hmem]


/-! ## Environment lemmas for direct evaluation -/

theorem envFold_append (l1 l2 : List (String × Node)) (env0 : String → Bool) :
    envFold (l1 ++ l2) env0 = envFold l2 (envFold l1 env0) := by
  simp [envFold, List.foldl_append]

theorem envFold_cons (s : String) (e : Node) (l : List (String × Node))
    (env0 : String → Bool) :
    envFold ((s, e) :: l) env0 =
      envFold l (fun x => if x = s then evalNode env0 e else env0 x) := rfl

theorem envFold_not_mem (l : List (String × Node)) (x : String) :
    ∀ env0 : String → Bool, x ∉ l.map (·.1) → envFold l env0 x = env0 x := by
  induction l with
  | nil => intro env0 _; rfl
  | cons hd tl ih =>
      intro env0 hx
      have hx1 : x ≠ hd.1 := by
        intro h; exact hx (by simp [h])
      have hx2 : x ∉ tl.map (·.1) := by
        intro h; exact hx (by simp [h])
      calc envFold (hd :: tl) env0 x
          = envFold tl (fun y => if y = hd.1 then evalNode env0 hd.2 else env0 y) x := rfl
        _ = (fun y => if y = hd.1 then evalNode env0 hd.2 else env0 y) x := ih _ hx2
        _ = env0 x := by simp [hx1]

theorem evalNode_congr (f g : String → Bool) (n : Node)
    (h : ∀ v ∈ nodeVars n, f v = g v) : evalNode f n = evalNode g n := by
  induction n with
  | Literal b => rfl
  | Variable v => exact h v (by simp [nodeVars])
  | UnOp op i ch ih =>
      simp only [evalNode]
      rw [ih (fun v hv => h v (by simpa [nodeVars] using hv))]
  | BinOp op i l r ihl ihr =>
      simp only [evalNode]
      rw [ihl (fun v hv => h v (by simp [nodeVars]; exact Or.inl hv)),
          ihr (fun v hv => h v (by simp [nodeVars]; exact Or.inr hv))]

/-- Inputs never appear among equation keys for a well-formed circuit, so
direct evaluation leaves them at their `I` values. -/
theorem circuitEnv_input (c : Circuit) (I : String → Bool) (v : String)
    (hv : v ∈ c.inputs) (hdisj : ∀ x ∈ c.inputs, x ∉ getSignals c) :
    circuitEnv c I v = I v := by
  have : v ∉ c.eqs.map (·.1) := hdisj v hv
  exact envFold_not_mem c.eqs v I this

/-- A signal already defined by the prefix `pre` of the equation list keeps
its value in the final environment. -/
theorem circuitEnv_stable (c : Circuit) (I : String → Bool)
    (pre post : List (String × Node)) (heq : c.eqs = pre ++ post)
    (hnd : (getSignals c).Nodup) (v : String) (hv : v ∈ pre.map (·.1)) :
    circuitEnv c I v = envFold pre I v := by
  have hnd' : (pre.map (·.1) ++ post.map (·.1)).Nodup := by
    have := hnd
    rw [getSignals, heq, List.map_append] at this
    exact this
  have hvpost : v ∉ post.map (·.1) :=
    fun hvp => (List.disjoint_of_nodup_append hnd') hv hvp
  rw [circuitEnv, heq, envFold_append]
  exact envFold_not_mem post v (envFold pre I) hvpost

/-- The defining equation of each signal is honored by direct evaluation:
the signal's value is its equation's value in the prefix environment. -/
theorem circuitEnv_spec (c : Circuit) (I : String → Bool)
    (pre post : List (String × Node)) (s : String) (e : Node)
    (heq : c.eqs = pre ++ (s, e) :: post) (hnd : (getSignals c).Nodup) :
    circuitEnv c I s = evalNode (envFold pre I) e := by
  have hnd' : (pre.map (·.1) ++ s :: post.map (·.1)).Nodup := by
    have := hnd
    rw [getSignals, heq, List.map_append] at this
    simpa using this
  have hspost : s ∉ post.map (·.1) := by
    have := (List.nodup_append.mp hnd').2.1
    exact (List.nodup_cons.mp this).1
  rw [circuitEnv, heq, envFold_append, envFold_cons]
  rw [envFold_not_mem post s _ hspost]
  simp

/-- On a node whose references are all inputs or `pre`-defined signals, the
prefix environment agrees with the final one. -/
theorem evalNode_pre_eq_final (c : Circuit) (I : String → Bool)
    (pre post : List (String × Node)) (heq : c.eqs = pre ++ post)
    (hnd : (getSignals c).Nodup)
    (hdisj : ∀ x ∈ c.inputs, x ∉ getSignals c) (n : Node)
    (hsc : scopedB c.inputs (pre.map (·.1)) n = true) :
    evalNode (envFold pre I) n = evalNode (circuitEnv c I) n := by
  apply evalNode_congr
  intro v hv
  have hv' := (List.all_eq_true.mp hsc) v hv
  rcases Bool.or_eq_true_iff.mp hv' with hin | hpre
  · have hin' : v ∈ c.inputs := by
      simpa using hin
    have h1 : v ∉ c.eqs.map (·.1) := hdisj v hin'
    have h2 : v ∉ pre.map (·.1) := by
      intro hp
      exact h1 (by rw [heq, List.map_append]; exact List.mem_append_left _ hp)
    rw [envFold_not_mem pre v I h2,
        circuitEnv_input c I v hin' hdisj]
  · have hpre' : v ∈ pre.map (·.1) := by
      simpa using hpre
    rw [circuitEnv_stable c I pre post heq hnd v hpre']


/-! ## Resolution and unfolding lemmas for the transformer -/

theorem getSatVar_input (fuel : Nat) (v : String) (c : Circuit) (p : String)
    (hv : v ∈ c.inputs) : getSatVar fuel v c p = .ok (.var v) := by
  simp [getSatVar, hv]

theorem getSatVar_sig (fuel : Nat) (v : String) (c : Circuit) (p : String)
    (hnin : v ∉ c.inputs) (hsig : v ∈ getSignals c)
    (hfl : isLiteral fuel (.Variable v) c = .ok false) :
    getSatVar fuel v c p = .ok (.var (p ++ v)) := by
  simp [getSatVar, hnin, hsig, hfl]

/-- `getSatVar` resolution on well-scoped names, for sufficient fuel. -/
theorem getSatVar_resolves (fuel : Nat) (v : String) (c : Circuit) (p : String)
    (hfuel : ∀ x ∈ getSignals c, isLiteral fuel (.Variable x) c = .ok false)
    (hv : v ∈ c.inputs ∨ v ∈ getSignals c) :
    getSatVar fuel v c p =
      .ok (.var (if v ∈ c.inputs then v else p ++ v)) := by
  by_cases hin : v ∈ c.inputs
  · rw [if_pos hin]; exact getSatVar_input fuel v c p hin
  · rw [if_neg hin]
    have hsig : v ∈ getSignals c := hv.resolve_left hin
    exact getSatVar_sig fuel v c p hin hsig (hfuel v hsig)

theorem childPart_lit (fuel : Nat) (b : Bool) (c : Circuit) (p : String) :
    childPart fuel (.Literal b) c p = .ok ([], .const b) := rfl

theorem childPart_var (fuel : Nat) (v : String) (c : Circuit) (p : String) :
    childPart fuel (.Variable v) c p =
      match getSatVar fuel v c p with
      | .error e => .error e
      | .ok o => .ok ([], o) := rfl

theorem childPart_unop (fuel : Nat) (op : String) (i : Nat) (g : Node)
    (c : Circuit) (p : String) :
    childPart fuel (.UnOp op i g) c p =
      match transform_node fuel (.UnOp op i g) ("y_" ++ toString i) c p with
      | .error e => .error e
      | .ok f => .ok (f, .var ("y_" ++ toString i)) := rfl

theorem childPart_binop (fuel : Nat) (op : String) (i : Nat) (l r : Node)
    (c : Circuit) (p : String) :
    childPart fuel (.BinOp op i l r) c p =
      match transform_node fuel (.BinOp op i l r) ("y_" ++ toString i) c p with
      | .error e => .error e
      | .ok f => .ok (f, .var ("y_" ++ toString i)) := rfl

theorem transform_node_lit (fuel : Nat) (b : Bool) (out : String)
    (c : Circuit) (p : String) :
    transform_node fuel (.Literal b) out c p = .ok [] := rfl

theorem transform_node_var (fuel : Nat) (v out : String) (c : Circuit)
    (p : String) :
    transform_node fuel (.Variable v) out c p =
      if v ∈ getSignals c then
        .ok [[nLit (p ++ v), pLit out], [pLit (p ++ v), nLit out]]
      else .error .keyError := by
  by_cases hv : v ∈ getSignals c <;> simp [transform_node, equals, hv]

theorem transform_node_unop (fuel : Nat) (op : String) (i : Nat) (ch : Node)
    (out : String) (c : Circuit) (p : String) :
    transform_node fuel (.UnOp op i ch) out c p =
      match childPart fuel ch c p with
      | .error e => .error e
      | .ok (f1, o1) =>
        if op = "~" then
          match gate_not o1 out with
          | .error e => .error e
          | .ok g => .ok (f1 ++ g)
        else .ok f1 := by
  cases ch <;> rfl

theorem transform_node_binop (fuel : Nat) (op : String) (i : Nat) (l r : Node)
    (out : String) (c : Circuit) (p : String) :
    transform_node fuel (.BinOp op i l r) out c p =
      match childPart fuel l c p with
      | .error e => .error e
      | .ok (f1, o1) =>
        match childPart fuel r c p with
        | .error e => .error e
        | .ok (f2, o2) =>
          if op = "&" then
            match gate_and o1 o2 out with
            | .error e => .error e
            | .ok g => .ok (f1 ++ f2 ++ g)
          else if op = "|" then
            match gate_or o1 o2 out with
            | .error e => .error e
            | .ok g => .ok (f1 ++ f2 ++ g)
          else if op = "^" then
            match gate_xor o1 o2 out with
            | .error e => .error e
            | .ok g => .ok (f1 ++ f2 ++ g)
          else .ok (f1 ++ f2) := by
  cases l <;> cases r <;> rfl

/-! ## `opSubs` and `sigmaStar` lemmas -/

theorem opSubs_map_nodeID : ∀ n : Node, (opSubs n).map nodeID = nodeIds n := by
  intro n
  induction n with
  | Literal b => rfl
  | Variable v => rfl
  | UnOp op i ch ih => simp [opSubs, nodeIds, nodeID, ih]
  | BinOp op i l r ihl ihr => simp [opSubs, nodeIds, nodeID, ihl, ihr]

theorem mem_opSubs_self_unop (op : String) (i : Nat) (ch : Node) :
    Node.UnOp op i ch ∈ opSubs (.UnOp op i ch) := by
  simp [opSubs]

theorem mem_opSubs_self_binop (op : String) (i : Nat) (l r : Node) :
    Node.BinOp op i l r ∈ opSubs (.BinOp op i l r) := by
  simp [opSubs]

theorem opSubs_sub_unop (op : String) (i : Nat) (ch : Node) :
    ∀ m ∈ opSubs ch, m ∈ opSubs (.UnOp op i ch) := by
  intro m hm; exact List.mem_cons_of_mem _ hm

theorem opSubs_sub_binop_left (op : String) (i : Nat) (l r : Node) :
    ∀ m ∈ opSubs l, m ∈ opSubs (.BinOp op i l r) := by
  intro m hm
  exact List.mem_cons_of_mem _ (List.mem_append_left _ hm)

theorem opSubs_sub_binop_right (op : String) (i : Nat) (l r : Node) :
    ∀ m ∈ opSubs r, m ∈ opSubs (.BinOp op i l r) := by
  intro m hm
  exact List.mem_cons_of_mem _ (List.mem_append_right _ hm)

theorem flatMap_pairs_keys (env : String → Bool) :
    ∀ l : List (String × Node),
      ((l.flatMap (fun se => (opSubs se.2).map
          (fun m => ("y_" ++ toString (nodeID m), evalNode env m)))).map
            Prod.fst)
        = (l.flatMap (fun se => nodeIds se.2)).map
            (fun i => "y_" ++ toString i) := by
  intro l
  induction l with
  | nil => rfl
  | cons hd tl ih =>
      rw [List.flatMap_cons, List.flatMap_cons, List.map_append, ih,
          List.map_append, List.map_map, ← opSubs_map_nodeID hd.2,
          List.map_map]
      rfl

theorem sigmaPairs_keys (c : Circuit) (p : String) (I : String → Bool) :
    (sigmaPairs c p I).map Prod.fst = allCnfNames c p := by
  show (_ ++ _ ++ _ : Sol).map Prod.fst = _
  rw [List.map_append, List.map_append, List.map_map, List.map_map,
      flatMap_pairs_keys]
  show c.inputs.map _ ++ _ ++ _ = _
  rw [show c.inputs.map (Prod.fst ∘ fun i => (i, I i)) = c.inputs.map id
        from rfl, List.map_id]
  rfl

theorem sigmaStar_input (c : Circuit) (p : String) (I : String → Bool)
    (hwf : Wf c p) (v : String) (hv : v ∈ c.inputs) :
    sigmaStar c p I v = I v := by
  apply lookupD_of_mem
  · rw [sigmaPairs_keys]; exact hwf.1
  · exact List.mem_append_left _ (List.mem_append_left _
      (List.mem_map.mpr ⟨v, hv, rfl⟩))

theorem sigmaStar_sig (c : Circuit) (p : String) (I : String → Bool)
    (hwf : Wf c p) (s : String) (hs : s ∈ getSignals c) :
    sigmaStar c p I (p ++ s) = circuitEnv c I s := by
  apply lookupD_of_mem
  · rw [sigmaPairs_keys]; exact hwf.1
  · exact List.mem_append_left _ (List.mem_append_right _
      (List.mem_map.mpr ⟨s, hs, rfl⟩))

theorem sigmaStar_y (c : Circuit) (p : String) (I : String → Bool)
    (hwf : Wf c p) (se : String × Node) (hse : se ∈ c.eqs) (m : Node)
    (hm : m ∈ opSubs se.2) :
    sigmaStar c p I ("y_" ++ toString (nodeID m)) =
      evalNode (circuitEnv c I) m := by
  apply lookupD_of_mem
  · rw [sigmaPairs_keys]; exact hwf.1
  · exact List.mem_append_right _
      (List.mem_flatMap.mpr ⟨se, hse, List.mem_map.mpr ⟨m, hm, rfl⟩⟩)

theorem scopedB_mem (ins D : List String) (n : Node) (v : String)
    (h : scopedB ins D n = true) (hv : v ∈ nodeVars n) :
    v ∈ ins ∨ v ∈ D := by
  have := (List.all_eq_true.mp h) v hv
  rcases Bool.or_eq_true_iff.mp this with h1 | h1
  · exact Or.inl (by simpa [List.elem_iff] using h1)
  · exact Or.inr (by simpa [List.elem_iff] using h1)


/-! ## Soundness of `transform_node` for well-formed, literal-free nodes
(direction A of transform exactness: the reference assignment satisfies the
emitted clauses). -/

theorem sigmaStar_resolved (c : Circuit) (p : String) (fuel : Nat)
    (I : String → Bool) (hwf : Wf c p)
    (hfuel : ∀ x ∈ getSignals c, isLiteral fuel (.Variable x) c = .ok false)
    (v : String) (hv : v ∈ c.inputs ∨ v ∈ getSignals c) :
    ∃ w, getSatVar fuel v c p = .ok (.var w) ∧
      sigmaStar c p I w = circuitEnv c I v := by
  by_cases hin : v ∈ c.inputs
  · refine ⟨v, getSatVar_input fuel v c p hin, ?_⟩
    rw [sigmaStar_input c p I hwf v hin, circuitEnv_input c I v hin hwf.2.1]
  · have hsig : v ∈ getSignals c := hv.resolve_left hin
    exact ⟨p ++ v, getSatVar_sig fuel v c p hin hsig (hfuel v hsig),
      sigmaStar_sig c p I hwf v hsig⟩

theorem transform_node_sat (c : Circuit) (p : String) (fuel : Nat)
    (I : String → Bool) (hwf : Wf c p)
    (hfuel : ∀ x ∈ getSignals c, isLiteral fuel (.Variable x) c = .ok false) :
    ∀ n : Node,
      (litFree n = true → opsOK n = true → topOK n c = true →
        (∀ v ∈ nodeVars n, v ∈ c.inputs ∨ v ∈ getSignals c) →
        (∀ m ∈ opSubs n, sigmaStar c p I ("y_" ++ toString (nodeID m)) =
          evalNode (circuitEnv c I) m) →
        ∀ out : String,
          sigmaStar c p I out = evalNode (circuitEnv c I) n →
          ∃ f, transform_node fuel n out c p = .ok f ∧
            Cnf.holds (sigmaStar c p I) f = true) ∧
      (litFree n = true → opsOK n = true →
        (∀ v ∈ nodeVars n, v ∈ c.inputs ∨ v ∈ getSignals c) →
        (∀ m ∈ opSubs n, sigmaStar c p I ("y_" ++ toString (nodeID m)) =
          evalNode (circuitEnv c I) m) →
        ∃ f1 w, childPart fuel n c p = .ok (f1, .var w) ∧
          Cnf.holds (sigmaStar c p I) f1 = true ∧
          sigmaStar c p I w = evalNode (circuitEnv c I) n) := by
  intro n
  induction n with
  | Literal b =>
      constructor
      · intro hlf; simp [litFree] at hlf
      · intro hlf; simp [litFree] at hlf
  | Variable v =>
      constructor
      · intro _ _ htop hsc _ out hout
        have hsig : v ∈ getSignals c := by
          simpa [topOK, List.elem_iff] using htop
        refine ⟨[[nLit (p ++ v), pLit out], [pLit (p ++ v), nLit out]],
          by rw [transform_node_var, if_pos hsig], ?_⟩
        rw [holds_equals_vv, hout, sigmaStar_sig c p I hwf v hsig]
        rfl
      · intro _ _ hsc _
        have hv : v ∈ c.inputs ∨ v ∈ getSignals c :=
          hsc v (by simp [nodeVars])
        obtain ⟨w, hw, hwval⟩ :=
          sigmaStar_resolved c p fuel I hwf hfuel v hv
        refine ⟨[], w, ?_, rfl, hwval⟩
        rw [childPart_var, hw]
  | UnOp op i ch ih =>
      have main : litFree (Node.UnOp op i ch) = true →
          opsOK (Node.UnOp op i ch) = true →
          topOK (Node.UnOp op i ch) c = true →
          (∀ v ∈ nodeVars (Node.UnOp op i ch),
            v ∈ c.inputs ∨ v ∈ getSignals c) →
          (∀ m ∈ opSubs (Node.UnOp op i ch),
            sigmaStar c p I ("y_" ++ toString (nodeID m)) =
              evalNode (circuitEnv c I) m) →
          ∀ out : String,
            sigmaStar c p I out = evalNode (circuitEnv c I) (.UnOp op i ch) →
            ∃ f, transform_node fuel (.UnOp op i ch) out c p = .ok f ∧
              Cnf.holds (sigmaStar c p I) f = true := by
        intro hlf hops _ hsc hy out hout
        have hlf' : litFree ch = true := by simpa [litFree] using hlf
        have hops' : op = "~" ∧ opsOK ch = true := by
          simpa [opsOK] using hops
        have hsc' : ∀ v ∈ nodeVars ch, v ∈ c.inputs ∨ v ∈ getSignals c := by
          intro v hv; exact hsc v (by simpa [nodeVars] using hv)
        have hy' : ∀ m ∈ opSubs ch,
            sigmaStar c p I ("y_" ++ toString (nodeID m)) =
              evalNode (circuitEnv c I) m := by
          intro m hm; exact hy m (opSubs_sub_unop op i ch m hm)
        obtain ⟨f1, w, hcp, hh1, hwval⟩ := ih.2 hlf' hops'.2 hsc' hy'
        refine ⟨f1 ++ [[nLit w, nLit out], [pLit w, pLit out]], ?_, ?_⟩
        · rw [transform_node_unop, hcp]
          simp [hops'.1, gate_not]
        · rw [holds_append, hh1, Bool.true_and,
            holds_not_vv, hout, hwval]
          simp [evalNode]
      refine ⟨main, ?_⟩
      intro hlf hops hsc hy
      obtain ⟨f, hok, hh⟩ := main hlf hops rfl hsc hy ("y_" ++ toString i)
        (hy (.UnOp op i ch) (mem_opSubs_self_unop op i ch))
      refine ⟨f, "y_" ++ toString i, ?_, hh, ?_⟩
      · rw [childPart_unop, hok]
      · exact hy (.UnOp op i ch) (mem_opSubs_self_unop op i ch)
  | BinOp op i l r ihl ihr =>
      have main : litFree (Node.BinOp op i l r) = true →
          opsOK (Node.BinOp op i l r) = true →
          topOK (Node.BinOp op i l r) c = true →
          (∀ v ∈ nodeVars (Node.BinOp op i l r),
            v ∈ c.inputs ∨ v ∈ getSignals c) →
          (∀ m ∈ opSubs (Node.BinOp op i l r),
            sigmaStar c p I ("y_" ++ toString (nodeID m)) =
              evalNode (circuitEnv c I) m) →
          ∀ out : String,
            sigmaStar c p I out = evalNode (circuitEnv c I) (.BinOp op i l r) →
            ∃ f, transform_node fuel (.BinOp op i l r) out c p = .ok f ∧
              Cnf.holds (sigmaStar c p I) f = true := by
        intro hlf hops _ hsc hy out hout
        have hlfl : litFree l = true := by
          have := hlf; simp [litFree, Bool.and_eq_true] at this; exact this.1
        have hlfr : litFree r = true := by
          have := hlf; simp [litFree, Bool.and_eq_true] at this; exact this.2
        obtain ⟨⟨hopor, hopsl⟩, hopsr⟩ :
            (((op = "&" ∨ op = "|") ∨ op = "^") ∧ opsOK l = true) ∧
              opsOK r = true := by
          simpa [opsOK, Bool.and_eq_true, Bool.or_eq_true_iff] using hops
        have hscl : ∀ v ∈ nodeVars l, v ∈ c.inputs ∨ v ∈ getSignals c := by
          intro v hv
          exact hsc v (by simp [nodeVars]; exact Or.inl hv)
        have hscr : ∀ v ∈ nodeVars r, v ∈ c.inputs ∨ v ∈ getSignals c := by
          intro v hv
          exact hsc v (by simp [nodeVars]; exact Or.inr hv)
        have hyl : ∀ m ∈ opSubs l,
            sigmaStar c p I ("y_" ++ toString (nodeID m)) =
              evalNode (circuitEnv c I) m := by
          intro m hm; exact hy m (opSubs_sub_binop_left op i l r m hm)
        have hyr : ∀ m ∈ opSubs r,
            sigmaStar c p I ("y_" ++ toString (nodeID m)) =
              evalNode (circuitEnv c I) m := by
          intro m hm; exact hy m (opSubs_sub_binop_right op i l r m hm)
        obtain ⟨f1, w1, hcp1, hh1, hw1⟩ := ihl.2 hlfl hopsl hscl hyl
        obtain ⟨f2, w2, hcp2, hh2, hw2⟩ := ihr.2 hlfr hopsr hscr hyr
        rcases hopor with (hop | hop) | hop
        · refine ⟨f1 ++ f2 ++
            [[nLit w1, nLit w2, pLit out], [pLit w1, nLit out],
             [pLit w2, nLit out]], ?_, ?_⟩
          · rw [transform_node_binop, hcp1, hcp2]
            simp [hop, gate_and]
          · rw [holds_append, holds_append, hh1, hh2, Bool.true_and,
              Bool.true_and, holds_and_vv, hout, hw1, hw2]
            simp [evalNode, hop]
        · refine ⟨f1 ++ f2 ++
            [[pLit w1, pLit w2, nLit out], [nLit w1, pLit out],
             [nLit w2, pLit out]], ?_, ?_⟩
          · rw [transform_node_binop, hcp1, hcp2]
            simp [hop, gate_or]
          · rw [holds_append, holds_append, hh1, hh2, Bool.true_and,
              Bool.true_and, holds_or_vv, hout, hw1, hw2]
            simp [evalNode, hop]
        · refine ⟨f1 ++ f2 ++
            [[nLit w1, nLit w2, nLit out], [pLit w1, pLit w2, nLit out],
             [pLit w1, nLit w2, pLit out], [nLit w1, pLit w2, pLit out]],
              ?_, ?_⟩
          · rw [transform_node_binop, hcp1, hcp2]
            simp [hop, gate_xor]
          · rw [holds_append, holds_append, hh1, hh2, Bool.true_and,
              Bool.true_and, holds_xor_vv, hout, hw1, hw2]
            simp [evalNode, hop]
      refine ⟨main, ?_⟩
      intro hlf hops hsc hy
      obtain ⟨f, hok, hh⟩ := main hlf hops rfl hsc hy ("y_" ++ toString i)
        (hy (.BinOp op i l r) (mem_opSubs_self_binop op i l r))
      refine ⟨f, "y_" ++ toString i, ?_, hh, ?_⟩
      · rw [childPart_binop, hok]
      · exact hy (.BinOp op i l r) (mem_opSubs_self_binop op i l r)



/-! ## Cooked unfolding lemmas (hypothesis-side rewriting) -/

theorem childPart_var_ok (fuel : Nat) (v : String) (c : Circuit) (p : String)
    (o' : Operand) (hsv : getSatVar fuel v c p = .ok o') :
    childPart fuel (.Variable v) c p = .ok ([], o') := by
  rw [childPart_var, hsv]

theorem transform_node_unop_ok (fuel : Nat) (op : String) (i : Nat)
    (ch : Node) (out : String) (c : Circuit) (p : String) (f1 : Cnf)
    (o1 : Operand) (hcp : childPart fuel ch c p = .ok (f1, o1)) :
    transform_node fuel (.UnOp op i ch) out c p =
      if op = "~" then
        match gate_not o1 out with
        | .error e => .error e
        | .ok g => .ok (f1 ++ g)
      else .ok f1 := by
  rw [transform_node_unop, hcp]

theorem transform_node_binop_ok (fuel : Nat) (op : String) (i : Nat)
    (l r : Node) (out : String) (c : Circuit) (p : String) (f1 f2 : Cnf)
    (o1 o2 : Operand) (hcp1 : childPart fuel l c p = .ok (f1, o1))
    (hcp2 : childPart fuel r c p = .ok (f2, o2)) :
    transform_node fuel (.BinOp op i l r) out c p =
      if op = "&" then
        match gate_and o1 o2 out with
        | .error e => .error e
        | .ok g => .ok (f1 ++ f2 ++ g)
      else if op = "|" then
        match gate_or o1 o2 out with
        | .error e => .error e
        | .ok g => .ok (f1 ++ f2 ++ g)
      else if op = "^" then
        match gate_xor o1 o2 out with
        | .error e => .error e
        | .ok g => .ok (f1 ++ f2 ++ g)
      else .ok (f1 ++ f2) := by
  rw [transform_node_binop, hcp1, hcp2]

theorem childPart_unop_ok (fuel : Nat) (op : String) (i : Nat) (g : Node)
    (c : Circuit) (p : String) (f : Cnf)
    (htn : transform_node fuel (.UnOp op i g) ("y_" ++ toString i) c p = .ok f) :
    childPart fuel (.UnOp op i g) c p = .ok (f, .var ("y_" ++ toString i)) := by
  rw [childPart_unop, htn]

theorem childPart_binop_ok (fuel : Nat) (op : String) (i : Nat) (l r : Node)
    (c : Circuit) (p : String) (f : Cnf)
    (htn : transform_node fuel (.BinOp op i l r) ("y_" ++ toString i) c p = .ok f) :
    childPart fuel (.BinOp op i l r) c p = .ok (f, .var ("y_" ++ toString i)) := by
  rw [childPart_binop, htn]

/-! ## Completeness of `transform_node` (direction B of transform exactness:
any assignment satisfying the emitted clauses gives each output variable the
node's direct-evaluation value). -/

theorem transform_node_uniq (c : Circuit) (p : String) (fuel : Nat)
    (I σ : String → Bool) (hwf : Wf c p)
    (hfuel : ∀ x ∈ getSignals c, isLiteral fuel (.Variable x) c = .ok false)
    (hin : ∀ v ∈ c.inputs, σ v = I v)
    (D : List String) (hD : ∀ v ∈ D, v ∈ getSignals c)
    (hDagree : ∀ v ∈ D, σ (p ++ v) = circuitEnv c I v) :
    ∀ n : Node,
      (litFree n = true → opsOK n = true →
        (∀ v ∈ nodeVars n, v ∈ c.inputs ∨ v ∈ D) →
        ∀ out f, transform_node fuel n out c p = .ok f →
          Cnf.holds σ f = true → σ out = evalNode (circuitEnv c I) n) ∧
      (litFree n = true → opsOK n = true →
        (∀ v ∈ nodeVars n, v ∈ c.inputs ∨ v ∈ D) →
        ∀ f1 o, childPart fuel n c p = .ok (f1, o) →
          ∃ w, o = .var w ∧ (Cnf.holds σ f1 = true →
            σ w = evalNode (circuitEnv c I) n)) := by
  have hvagree : ∀ v, v ∈ c.inputs ∨ v ∈ D →
      σ (if v ∈ c.inputs then v else p ++ v) = circuitEnv c I v := by
    intro v hv
    by_cases hvi : v ∈ c.inputs
    · rw [if_pos hvi, hin v hvi, circuitEnv_input c I v hvi hwf.2.1]
    · rw [if_neg hvi]
      exact hDagree v (hv.resolve_left hvi)
  intro n
  induction n with
  | Literal b =>
      constructor
      · intro hlf; simp [litFree] at hlf
      · intro hlf; simp [litFree] at hlf
  | Variable v =>
      constructor
      · intro _ _ hsc out f htn hh
        rw [transform_node_var] at htn
        by_cases hsig : v ∈ getSignals c
        · rw [if_pos hsig] at htn
          have hf : [[nLit (p ++ v), pLit out], [pLit (p ++ v), nLit out]]
              = f := by
            simpa using htn
          subst hf
          have h1 := (holds_equals_vv σ (p ++ v) out).mp hh
          have hvD : v ∈ D := by
            rcases hsc v (by simp [nodeVars]) with hvi | hvD
            · exact absurd hsig (hwf.2.1 v hvi)
            · exact hvD
          rw [h1, hDagree v hvD]
          rfl
        · rw [if_neg hsig] at htn
          cases htn
      · intro _ _ hsc f1 o hcp
        have hv : v ∈ c.inputs ∨ v ∈ D := hsc v (by simp [nodeVars])
        have hv' : v ∈ c.inputs ∨ v ∈ getSignals c := by
          rcases hv with h | h
          · exact Or.inl h
          · exact Or.inr (hD v h)
        rw [childPart_var_ok fuel v c p _
          (getSatVar_resolves fuel v c p hfuel hv')] at hcp
        simp only [Except.ok.injEq, Prod.mk.injEq] at hcp
        obtain ⟨hf1, ho⟩ := hcp
        refine ⟨if v ∈ c.inputs then v else p ++ v, ho.symm, fun _ => ?_⟩
        exact hvagree v hv
  | UnOp op i ch ih =>
      have main : litFree (Node.UnOp op i ch) = true →
          opsOK (Node.UnOp op i ch) = true →
          (∀ v ∈ nodeVars (Node.UnOp op i ch), v ∈ c.inputs ∨ v ∈ D) →
          ∀ out f, transform_node fuel (.UnOp op i ch) out c p = .ok f →
            Cnf.holds σ f = true →
            σ out = evalNode (circuitEnv c I) (.UnOp op i ch) := by
        intro hlf hops hsc out f htn hh
        have hlf' : litFree ch = true := by simpa [litFree] using hlf
        have hops' : op = "~" ∧ opsOK ch = true := by
          simpa [opsOK] using hops
        have hsc' : ∀ v ∈ nodeVars ch, v ∈ c.inputs ∨ v ∈ D := by
          intro v hv; exact hsc v (by simpa [nodeVars] using hv)
        rcases hcp : childPart fuel ch c p with e | ⟨f1, o1⟩
        · rw [transform_node_unop, hcp] at htn
          cases htn
        · obtain ⟨w, ho1, hwval⟩ := ih.2 hlf' hops'.2 hsc' f1 o1 hcp
          subst ho1
          rw [transform_node_unop_ok fuel op i ch out c p f1 _ hcp,
            if_pos hops'.1] at htn
          have hg : gate_not (.var w) out =
              .ok [[nLit w, nLit out], [pLit w, pLit out]] := rfl
          rw [hg] at htn
          have hf : f1 ++ [[nLit w, nLit out], [pLit w, pLit out]] = f := by
            simpa using htn
          subst hf
          rw [holds_append, Bool.and_eq_true] at hh
          rw [(holds_not_vv σ w out).mp hh.2, hwval hh.1]
          simp [evalNode]
      refine ⟨main, ?_⟩
      intro hlf hops hsc f1 o hcp
      rcases htn : transform_node fuel (.UnOp op i ch) ("y_" ++ toString i) c p
        with e | f
      · rw [childPart_unop, htn] at hcp
        cases hcp
      · rw [childPart_unop_ok fuel op i ch c p f htn] at hcp
        simp only [Except.ok.injEq, Prod.mk.injEq] at hcp
        obtain ⟨hf1, ho⟩ := hcp
        refine ⟨"y_" ++ toString i, ho.symm, fun hh => ?_⟩
        exact main hlf hops hsc _ f htn (hf1 ▸ hh)
  | BinOp op i l r ihl ihr =>
      have main : litFree (Node.BinOp op i l r) = true →
          opsOK (Node.BinOp op i l r) = true →
          (∀ v ∈ nodeVars (Node.BinOp op i l r), v ∈ c.inputs ∨ v ∈ D) →
          ∀ out f, transform_node fuel (.BinOp op i l r) out c p = .ok f →
            Cnf.holds σ f = true →
            σ out = evalNode (circuitEnv c I) (.BinOp op i l r) := by
        intro hlf hops hsc out f htn hh
        have hlfl : litFree l = true := by
          have := hlf; simp [litFree, Bool.and_eq_true] at this; exact this.1
        have hlfr : litFree r = true := by
          have := hlf; simp [litFree, Bool.and_eq_true] at this; exact this.2
        obtain ⟨⟨hopor, hopsl⟩, hopsr⟩ :
            (((op = "&" ∨ op = "|") ∨ op = "^") ∧ opsOK l = true) ∧
              opsOK r = true := by
          simpa [opsOK, Bool.and_eq_true, Bool.or_eq_true_iff] using hops
        have hscl : ∀ v ∈ nodeVars l, v ∈ c.inputs ∨ v ∈ D := by
          intro v hv; exact hsc v (by simp [nodeVars]; exact Or.inl hv)
        have hscr : ∀ v ∈ nodeVars r, v ∈ c.inputs ∨ v ∈ D := by
          intro v hv; exact hsc v (by simp [nodeVars]; exact Or.inr hv)
        rcases hcp1 : childPart fuel l c p with e | ⟨f1, o1⟩
        · rw [transform_node_binop, hcp1] at htn
          cases htn
        · rcases hcp2 : childPart fuel r c p with e | ⟨f2, o2⟩
          · rw [transform_node_binop, hcp1, hcp2] at htn
            cases htn
          · obtain ⟨w1, ho1, hw1⟩ := ihl.2 hlfl hopsl hscl f1 o1 hcp1
            obtain ⟨w2, ho2, hw2⟩ := ihr.2 hlfr hopsr hscr f2 o2 hcp2
            subst ho1; subst ho2
            rw [transform_node_binop_ok fuel op i l r out c p f1 f2 _ _
              hcp1 hcp2] at htn
            rcases hopor with (hop | hop) | hop
            · rw [if_pos hop] at htn
              have hg : gate_and (.var w1) (.var w2) out =
                  .ok [[nLit w1, nLit w2, pLit out], [pLit w1, nLit out],
                       [pLit w2, nLit out]] := rfl
              rw [hg] at htn
              have hf : f1 ++ f2 ++
                  [[nLit w1, nLit w2, pLit out], [pLit w1, nLit out],
                   [pLit w2, nLit out]] = f := by
                simpa using htn
              subst hf
              rw [holds_append, Bool.and_eq_true, holds_append,
                Bool.and_eq_true] at hh
              rw [(holds_and_vv σ w1 w2 out).mp hh.2, hw1 hh.1.1, hw2 hh.1.2]
              simp [evalNode, hop]
            · rw [if_neg (by simp [hop]), if_pos hop] at htn
              have hg : gate_or (.var w1) (.var w2) out =
                  .ok [[pLit w1, pLit w2, nLit out], [nLit w1, pLit out],
                       [nLit w2, pLit out]] := rfl
              rw [hg] at htn
              have hf : f1 ++ f2 ++
                  [[pLit w1, pLit w2, nLit out], [nLit w1, pLit out],
                   [nLit w2, pLit out]] = f := by
                simpa using htn
              subst hf
              rw [holds_append, Bool.and_eq_true, holds_append,
                Bool.and_eq_true] at hh
              rw [(holds_or_vv σ w1 w2 out).mp hh.2, hw1 hh.1.1, hw2 hh.1.2]
              simp [evalNode, hop]
            · rw [if_neg (by simp [hop]), if_neg (by simp [hop]),
                if_pos hop] at htn
              have hg : gate_xor (.var w1) (.var w2) out =
                  .ok [[nLit w1, nLit w2, nLit out],
                       [pLit w1, pLit w2, nLit out],
                       [pLit w1, nLit w2, pLit out],
                       [nLit w1, pLit w2, pLit out]] := rfl
              rw [hg] at htn
              have hf : f1 ++ f2 ++
                  [[nLit w1, nLit w2, nLit out],
                   [pLit w1, pLit w2, nLit out],
                   [pLit w1, nLit w2, pLit out],
                   [nLit w1, pLit w2, pLit out]] = f := by
                simpa using htn
              subst hf
              rw [holds_append, Bool.and_eq_true, holds_append,
                Bool.and_eq_true] at hh
              rw [(holds_xor_vv σ w1 w2 out).mp hh.2, hw1 hh.1.1, hw2 hh.1.2]
              simp [evalNode, hop]
      refine ⟨main, ?_⟩
      intro hlf hops hsc f1 o hcp
      rcases htn : transform_node fuel (.BinOp op i l r) ("y_" ++ toString i) c p
        with e | f
      · rw [childPart_binop, htn] at hcp
        cases hcp
      · rw [childPart_binop_ok fuel op i l r c p f htn] at hcp
        simp only [Except.ok.injEq, Prod.mk.injEq] at hcp
        obtain ⟨hf1, ho⟩ := hcp
        refine ⟨"y_" ++ toString i, ho.symm, fun hh => ?_⟩
        exact main hlf hops hsc _ f htn (hf1 ▸ hh)


/-! ## Circuit-level exactness -/

theorem Wf_sigs_nodup (c : Circuit) (p : String) (hwf : Wf c p) :
    (getSignals c).Nodup := by
  have h := hwf.1
  rw [allCnfNames] at h
  have h1 := (List.nodup_append.mp h).1
  have h2 := (List.nodup_append.mp h1).2.1
  exact h2.of_map

theorem transformGo_acc (fuel : Nat) (c : Circuit) (p : String) :
    ∀ (l : List (String × Node)) (acc : Cnf),
      transformGo fuel c p l acc = (transformGo fuel c p l []).map (acc ++ ·) := by
  intro l
  induction l with
  | nil => intro acc; simp [transformGo, Except.map]
  | cons hd tl ih =>
      intro acc
      obtain ⟨s, e⟩ := hd
      rcases hge : getEquation c s with er | node
      · simp [transformGo, hge, Except.map]
      · rcases htn : transform_node fuel node (p ++ s) c p with er | f
        · simp [transformGo, hge, htn, Except.map]
        · simp only [transformGo, hge, htn]
          rw [ih (acc ++ f), ih ([] ++ f)]
          rcases hgo : transformGo fuel c p tl [] with er | F
          · simp [Except.map]
          · simp [Except.map, List.append_assoc]

theorem transformGo_sat (c : Circuit) (p : String) (fuel : Nat)
    (I : String → Bool) (hwf : Wf c p)
    (hfuel : ∀ x ∈ getSignals c, isLiteral fuel (.Variable x) c = .ok false) :
    ∀ (l pre : List (String × Node)), c.eqs = pre ++ l →
      topoB c.inputs (pre.map (·.1)) l = true →
      ∀ acc, Cnf.holds (sigmaStar c p I) acc = true →
      ∃ F, transformGo fuel c p l acc = .ok F ∧
        Cnf.holds (sigmaStar c p I) F = true := by
  intro l
  induction l with
  | nil =>
      intro pre _ _ acc hacc
      exact ⟨acc, rfl, hacc⟩
  | cons hd tl ih =>
      intro pre heq htopo acc hacc
      obtain ⟨s, e⟩ := hd
      have hmem : (s, e) ∈ c.eqs := by
        rw [heq]; exact List.mem_append_right _ (List.mem_cons_self _ _)
      have hsig : s ∈ getSignals c :=
        List.mem_map.mpr ⟨(s, e), hmem, rfl⟩
      have hge : getEquation c s = .ok e :=
        getEquation_of_mem c s e (Wf_sigs_nodup c p hwf) hmem
      have htopo' : scopedB c.inputs (pre.map (·.1)) e = true ∧
          topoB c.inputs (pre.map (·.1) ++ [s]) tl = true := by
        simpa [topoB, Bool.and_eq_true] using htopo
      obtain ⟨hwfe1, hwfe2, hwfe3⟩ := hwf.2.2.2 (s, e) hmem
      have hsc : ∀ v ∈ nodeVars e, v ∈ c.inputs ∨ v ∈ getSignals c := by
        intro v hv
        rcases scopedB_mem _ _ _ v htopo'.1 hv with h | h
        · exact Or.inl h
        · refine Or.inr ?_
          rw [getSignals, heq, List.map_append]
          exact List.mem_append_left _ h
      have hy : ∀ m ∈ opSubs e,
          sigmaStar c p I ("y_" ++ toString (nodeID m)) =
            evalNode (circuitEnv c I) m := by
        intro m hm
        exact sigmaStar_y c p I hwf (s, e) hmem m hm
      have hout : sigmaStar c p I (p ++ s) =
          evalNode (circuitEnv c I) e := by
        rw [sigmaStar_sig c p I hwf s hsig,
          circuitEnv_spec c I pre tl s e heq (Wf_sigs_nodup c p hwf),
          evalNode_pre_eq_final c I pre ((s, e) :: tl) heq
            (Wf_sigs_nodup c p hwf) hwf.2.1 e htopo'.1]
      obtain ⟨f, hok, hh⟩ :=
        (transform_node_sat c p fuel I hwf hfuel e).1 hwfe1 hwfe2 hwfe3 hsc hy
          (p ++ s) hout
      have heq' : c.eqs = (pre ++ [(s, e)]) ++ tl := by
        rw [heq, List.append_assoc]; rfl
      have htopo'' : topoB c.inputs ((pre ++ [(s, e)]).map (·.1)) tl = true := by
        rw [List.map_append]
        exact htopo'.2
      obtain ⟨F, hFok, hFh⟩ := ih (pre ++ [(s, e)]) heq' htopo'' (acc ++ f)
        (by rw [holds_append, hacc, hh]; rfl)
      refine ⟨F, ?_, hFh⟩
      simp only [transformGo, hge, hok]
      exact hFok

theorem transformGo_uniq (c : Circuit) (p : String) (fuel : Nat)
    (I σ : String → Bool) (hwf : Wf c p)
    (hfuel : ∀ x ∈ getSignals c, isLiteral fuel (.Variable x) c = .ok false)
    (hin : ∀ v ∈ c.inputs, σ v = I v) :
    ∀ (l pre : List (String × Node)), c.eqs = pre ++ l →
      topoB c.inputs (pre.map (·.1)) l = true →
      (∀ v ∈ pre.map (·.1), σ (p ++ v) = circuitEnv c I v) →
      ∀ F, transformGo fuel c p l [] = .ok F → Cnf.holds σ F = true →
      ∀ s ∈ l.map (·.1), σ (p ++ s) = circuitEnv c I s := by
  intro l
  induction l with
  | nil =>
      intro pre _ _ _ F _ _ s hs
      cases hs
  | cons hd tl ih =>
      intro pre heq htopo hDagree F hFok hFh s hs
      obtain ⟨s0, e⟩ := hd
      have hmem : (s0, e) ∈ c.eqs := by
        rw [heq]; exact List.mem_append_right _ (List.mem_cons_self _ _)
      have hsig0 : s0 ∈ getSignals c :=
        List.mem_map.mpr ⟨(s0, e), hmem, rfl⟩
      have hge : getEquation c s0 = .ok e :=
        getEquation_of_mem c s0 e (Wf_sigs_nodup c p hwf) hmem
      have htopo' : scopedB c.inputs (pre.map (·.1)) e = true ∧
          topoB c.inputs (pre.map (·.1) ++ [s0]) tl = true := by
        simpa [topoB, Bool.and_eq_true] using htopo
      obtain ⟨hwfe1, hwfe2, _⟩ := hwf.2.2.2 (s0, e) hmem
      rcases htn : transform_node fuel e (p ++ s0) c p with er | f
      · simp only [transformGo, hge, htn] at hFok
        cases hFok
      · simp only [transformGo, hge, htn] at hFok
        rw [transformGo_acc fuel c p tl ([] ++ f)] at hFok
        rcases hgo : transformGo fuel c p tl [] with er | F2
        · rw [hgo] at hFok; cases hFok
        · rw [hgo] at hFok
          have hF' : f ++ F2 = F := by simpa [Except.map] using hFok
          subst hF'
          rw [holds_append, Bool.and_eq_true] at hFh
          have hD : ∀ v ∈ pre.map (·.1), v ∈ getSignals c := by
            intro v hv
            rw [getSignals, heq, List.map_append]
            exact List.mem_append_left _ hv
          have hsc : ∀ v ∈ nodeVars e, v ∈ c.inputs ∨ v ∈ pre.map (·.1) := by
            intro v hv
            exact scopedB_mem _ _ _ v htopo'.1 hv
          have hs0val : σ (p ++ s0) = circuitEnv c I s0 := by
            have h1 := (transform_node_uniq c p fuel I σ hwf hfuel hin
              (pre.map (·.1)) hD hDagree e).1 hwfe1 hwfe2 hsc (p ++ s0) f
              htn hFh.1
            rw [h1, ← evalNode_pre_eq_final c I pre ((s0, e) :: tl) heq
              (Wf_sigs_nodup c p hwf) hwf.2.1 e htopo'.1,
              ← circuitEnv_spec c I pre tl s0 e heq (Wf_sigs_nodup c p hwf)]
          have hs' : s = s0 ∨ ∃ x, (s, x) ∈ tl := by simpa using hs
          rcases hs' with hss | ⟨x, hss⟩
          · rw [hss]; exact hs0val
          · have heq' : c.eqs = (pre ++ [(s0, e)]) ++ tl := by
              rw [heq, List.append_assoc]; rfl
            have htopo'' : topoB c.inputs ((pre ++ [(s0, e)]).map (·.1)) tl
                = true := by
              rw [List.map_append]; exact htopo'.2
            have hDagree' : ∀ v ∈ (pre ++ [(s0, e)]).map (·.1),
                σ (p ++ v) = circuitEnv c I v := by
              intro v hv
              rw [List.map_append] at hv
              rcases List.mem_append.mp hv with h | h
              · exact hDagree v h
              · have : v = s0 := by simpa using h
                rw [this]; exact hs0val
            exact ih (pre ++ [(s0, e)]) heq' htopo'' hDagree' F2 hgo hFh.2 s
              (List.mem_map.mpr ⟨(s, x), hss, rfl⟩)


/-- Claim C2 (amended): for every well-formed circuit — topologically ordered
acyclic equations over supported operators, collision-free names, inputs
disjoint from signals — that contains no `Literal` constant nodes (the
source's constant-folding path, refuted by `C2_counterexample`, is then never
taken), and for fuel sufficient for `isLiteral`'s recursion, `transform`
succeeds; the resulting CNF is satisfiable with the inputs set to any
prescribed assignment `I` (witnessed by the reference assignment), and every
satisfying assignment that fixes the inputs to `I` gives every named signal's
prefixed variable exactly the circuit's direct-evaluation value. -/
theorem C2_transform_exact (c : Circuit) (p : String) (fuel : Nat)
    (I : String → Bool) (hwf : Wf c p)
    (hfuel : ∀ x ∈ getSignals c, isLiteral fuel (.Variable x) c = .ok false) :
    ∃ F, transform fuel c p = .ok F ∧
      (Cnf.holds (sigmaStar c p I) F = true ∧
        ∀ v ∈ c.inputs, sigmaStar c p I v = I v) ∧
      ∀ σ : String → Bool, Cnf.holds σ F = true →
        (∀ v ∈ c.inputs, σ v = I v) →
        ∀ s ∈ getSignals c, σ (p ++ s) = circuitEnv c I s := by
  obtain ⟨F, hFok, hFh⟩ := transformGo_sat c p fuel I hwf hfuel c.eqs []
    (List.nil_append _).symm hwf.2.2.1 [] rfl
  refine ⟨F, hFok, ⟨hFh, fun v hv => sigmaStar_input c p I hwf v hv⟩, ?_⟩
  intro σ hσF hσin s hs
  exact transformGo_uniq c p fuel I σ hwf hfuel hσin c.eqs []
    (List.nil_append _).symm hwf.2.2.1 (by intro v hv; cases hv) F hFok hσF s hs

/-- Witness for C2 (amended) at a concrete input: the spec's full adder with
prefix `c1_` and the all-false input assignment. -/
theorem C2_transform_exact_witness :
    Wf fullAdder "c1_" ∧
      (∀ x ∈ getSignals fullAdder,
        isLiteral 10 (.Variable x) fullAdder = .ok false) ∧
      ∃ F, transform 10 fullAdder "c1_" = .ok F ∧
        (Cnf.holds (sigmaStar fullAdder "c1_" (fun _ => false)) F = true ∧
          ∀ v ∈ fullAdder.inputs,
            sigmaStar fullAdder "c1_" (fun _ => false) v = (fun _ => false) v) ∧
        ∀ σ : String → Bool, Cnf.holds σ F = true →
          (∀ v ∈ fullAdder.inputs, σ v = (fun _ => false) v) →
          ∀ s ∈ getSignals fullAdder,
            σ ("c1_" ++ s) = circuitEnv fullAdder (fun _ => false) s :=
  ⟨by decide, by decide,
    C2_transform_exact fullAdder "c1_" 10 (fun _ => false) (by decide)
      (by decide)⟩


/-! ## Claim C3 (amended) and claim C7 -/

theorem loopCalls_const_none (miter : Cnf)
    (tests : List (List (String × Bool))) (p1 p2 : String) :
    loopCalls (fun _ => none) miter tests p1 p2 = tests.length := by
  induction tests with
  | nil => rfl
  | cons t rest ih => simp [loopCalls, ih]; omega

theorem createTests_length (ins : List String) :
    (createTests ins).length = 2 ^ ins.length := by
  simp [createTests]

/-- Claim C3 (amended): when both circuits pass the interface check and the
transforms and miter construction succeed, `check` enumerates every one of
the `2^n` input vectors produced by `createTests` and issues one oracle query
per vector (here counted against an oracle that never reports satisfiable,
so no early return occurs). -/
theorem C3_amended_enumerates (fuel : Nat) (c1 c2 : Circuit)
    (hlen1 : c1.inputs.length = c2.inputs.length)
    (hlen2 : c1.outputs.length = c2.outputs.length)
    (hd1 : pySetDiff c1.inputs c2.inputs = [])
    (hd2 : pySetDiff c1.outputs c2.outputs = [])
    (f1 f2 : Cnf) (ht1 : transform fuel c1 "c1_" = .ok f1)
    (ht2 : transform fuel c2 "c2_" = .ok f2)
    (g : Cnf) (o : String)
    (hm : createMiter c1.outputs "c1_" "c2_" = .ok (g, o)) :
    checkCalls (fun _ => none) fuel c1 c2 = 2 ^ c1.inputs.length := by
  have hA : ¬(c1.inputs.length ≠ c2.inputs.length ∨
      c1.outputs.length ≠ c2.outputs.length) := by
    simp [hlen1, hlen2]
  have hB : ¬((pySetDiff c1.inputs c2.inputs).length ≠ 0 ∨
      (pySetDiff c1.outputs c2.outputs).length ≠ 0) := by
    simp [hd1, hd2]
  rw [checkCalls, if_neg hA, if_neg hB]
  simp only [ht1, ht2, hm]
  simp [loopCalls_const_none, createTests_length]

/-- Witness for C3 (amended): the concrete pair `cBufA`, `cInvA` with the
never-satisfiable oracle issues `2^1 = 2` queries. -/
theorem C3_amended_witness :
    pySetDiff cBufA.inputs cInvA.inputs = [] ∧
      checkCalls (fun _ => none) 10 cBufA cInvA = 2 ^ cBufA.inputs.length :=
  ⟨by decide,
    C3_amended_enumerates 10 cBufA cInvA rfl rfl rfl rfl _ _ (by rfl) (by rfl)
      _ _ (by rfl)⟩

theorem sets_differ_trigger (a b : List String) (ha : a.Nodup) (hb : b.Nodup)
    (hne : a.toFinset ≠ b.toFinset) :
    a.length ≠ b.length ∨ (pySetDiff a b).length ≠ 0 := by
  by_contra hcon
  push_neg at hcon
  obtain ⟨hlen, hdiff⟩ := hcon
  apply hne
  have hdiff' : pySetDiff a b = [] := List.length_eq_zero.mp hdiff
  have hsub : ∀ x ∈ a, x ∈ b := by
    intro x hx
    have hfx := List.filter_eq_nil_iff.mp hdiff' x hx
    have : (b.contains x) = true := by
      cases hcb : b.contains x
      · exact absurd (by rw [hcb]; rfl) hfx
      · rfl
    simpa [List.elem_iff] using this
  have hsubf : a.toFinset ⊆ b.toFinset := by
    intro x hx
    exact List.mem_toFinset.mpr (hsub x (List.mem_toFinset.mp hx))
  refine Finset.eq_of_subset_of_card_le hsubf ?_
  rw [List.toFinset_card_of_nodup ha, List.toFinset_card_of_nodup hb, hlen]

/-- Claim C7: for circuits with distinct input names and distinct output
names, whenever the input-name sets differ or the output-name sets differ
(as sets), `check` returns `(False, None)` — for EVERY oracle, since the
oracle is never consulted (`checkCalls` is 0) — without invoking the
transformer's result. -/
theorem C7_interface_mismatch (c1 c2 : Circuit)
    (h1 : c1.inputs.Nodup) (h2 : c2.inputs.Nodup)
    (h3 : c1.outputs.Nodup) (h4 : c2.outputs.Nodup)
    (hne : c1.inputs.toFinset ≠ c2.inputs.toFinset ∨
      c1.outputs.toFinset ≠ c2.outputs.toFinset) :
    ∀ (solve : Cnf → Option Sol) (fuel : Nat),
      check solve fuel c1 c2 = .ok (false, none) ∧
        checkCalls solve fuel c1 c2 = 0 := by
  intro solve fuel
  have htrig : (c1.inputs.length ≠ c2.inputs.length ∨
      c1.outputs.length ≠ c2.outputs.length) ∨
      ((pySetDiff c1.inputs c2.inputs).length ≠ 0 ∨
       (pySetDiff c1.outputs c2.outputs).length ≠ 0) := by
    rcases hne with h | h
    · rcases sets_differ_trigger _ _ h1 h2 h with hl | hd
      · exact Or.inl (Or.inl hl)
      · exact Or.inr (Or.inl hd)
    · rcases sets_differ_trigger _ _ h3 h4 h with hl | hd
      · exact Or.inl (Or.inr hl)
      · exact Or.inr (Or.inr hd)
  by_cases hA : (c1.inputs.length ≠ c2.inputs.length ∨
      c1.outputs.length ≠ c2.outputs.length)
  · constructor
    · rw [check, if_pos hA]
    · rw [checkCalls, if_pos hA]
  · have hB := htrig.resolve_left hA
    constructor
    · rw [check, if_neg hA, if_pos hB]
    · rw [checkCalls, if_neg hA, if_pos hB]

/-- Witness for C7: the spec's scenario 3 — a two-input circuit against a
three-input circuit — with an arbitrary concrete oracle. -/
theorem C7_witness :
    (cAnd2.inputs.toFinset ≠ cAnd3.inputs.toFinset ∨
      cAnd2.outputs.toFinset ≠ cAnd3.outputs.toFinset) ∧
      check (fun _ => none) 10 cAnd2 cAnd3 = .ok (false, none) ∧
      checkCalls (fun _ => none) 10 cAnd2 cAnd3 = 0 :=
  ⟨by decide,
    C7_interface_mismatch cAnd2 cAnd3 (by decide) (by decide) (by decide)
      (by decide) (by decide) (fun _ => none) 10⟩


/-! ## Claim C6 (amended): exponential blow-up on shared chains -/

theorem transform_node_chain_len (c : Circuit) (ha : "a" ∈ c.inputs)
    (hb : "b" ∈ c.inputs) (fuel : Nat) :
    ∀ (k : Nat) (out : String),
      (transform_node fuel (chainN k) out c "").map List.length =
        .ok (6 * 2 ^ k - 3) := by
  intro k
  induction k with
  | zero =>
      intro out
      rw [show chainN 0 = .BinOp "&" 0 (.Variable "a") (.Variable "b") from rfl,
        transform_node_binop_ok fuel "&" 0 _ _ out c "" [] [] (.var "a")
          (.var "b")
          (childPart_var_ok fuel "a" c "" _ (getSatVar_input fuel "a" c "" ha))
          (childPart_var_ok fuel "b" c "" _ (getSatVar_input fuel "b" c "" hb))]
      rfl
  | succ k ih =>
      intro out
      obtain ⟨f, hf, hlen⟩ : ∃ f,
          transform_node fuel (chainN k) ("y_" ++ toString (nodeID (chainN k)))
            c "" = .ok f ∧ f.length = 6 * 2 ^ k - 3 := by
        have h := ih ("y_" ++ toString (nodeID (chainN k)))
        rcases htn : transform_node fuel (chainN k)
            ("y_" ++ toString (nodeID (chainN k))) c "" with er | f
        · rw [htn] at h; simp [Except.map] at h
        · rw [htn] at h
          exact ⟨f, rfl, by simpa [Except.map] using h⟩
      have hcp : childPart fuel (chainN k) c "" =
          .ok (f, .var ("y_" ++ toString (nodeID (chainN k)))) := by
        cases k with
        | zero => exact childPart_binop_ok fuel "&" 0 _ _ c "" f hf
        | succ k' => exact childPart_binop_ok fuel "&" (k' + 1) _ _ c "" f hf
      rw [show chainN (k + 1) = .BinOp "&" (k + 1) (chainN k) (chainN k)
          from rfl,
        transform_node_binop_ok fuel "&" (k + 1) _ _ out c "" f f _ _ hcp hcp]
      have h2 : 1 ≤ 2 ^ k := Nat.one_le_two_pow
      simp [gate_and, Except.map, hlen, pow_succ]
      omega

theorem chainN_ids_le : ∀ k, ∀ i ∈ nodeIds (chainN k), i ≤ k := by
  intro k
  induction k with
  | zero => intro i hi; simp [chainN, nodeIds] at hi; omega
  | succ k ih =>
      intro i hi
      simp only [chainN, nodeIds, List.mem_cons, List.mem_append] at hi
      rcases hi with hi | hi | hi
      · omega
      · exact Nat.le_succ_of_le (ih i hi)
      · exact Nat.le_succ_of_le (ih i hi)

theorem chainN_ids_card : ∀ d, (nodeIds (chainN d)).toFinset.card = d + 1 := by
  intro d
  induction d with
  | zero => rfl
  | succ d ih =>
      have hni : (d + 1) ∉ (nodeIds (chainN d) ++ nodeIds (chainN d)).toFinset := by
        rw [List.toFinset_append, Finset.mem_union]
        intro hmem
        rcases hmem with h | h <;>
          exact absurd (chainN_ids_le d (d + 1) (List.mem_toFinset.mp h))
            (by omega)
      show ((d + 1) ::
        (nodeIds (chainN d) ++ nodeIds (chainN d))).toFinset.card = d + 2
      rw [List.toFinset_cons, Finset.card_insert_of_not_mem hni,
        List.toFinset_append, Finset.union_self, ih]

/-- Claim C6 (amended): there is no memoization — `transform_node` recurses
into every `OpNode` child occurrence — so the CNF of the depth-`d` chain of
shared conjunctions has `6·2^d − 3` clauses, exponential in `d`, while the
chain's DAG has only `d + 1` distinct node identities. -/
theorem C6_amended_chain_exponential :
    ∀ d : Nat,
      (transform 10 (chainC d) "").map List.length = .ok (6 * 2 ^ d - 3) ∧
      (nodeIds (chainN d)).toFinset.card = d + 1 := by
  intro d
  refine ⟨?_, chainN_ids_card d⟩
  have hge : getEquation (chainC d) "o" = .ok (chainN d) := rfl
  have h := transform_node_chain_len (chainC d) (by simp [chainC])
    (by simp [chainC]) 10 d ("" ++ "o")
  rcases htn : transform_node 10 (chainN d) ("" ++ "o") (chainC d) ""
      with er | f
  · rw [htn] at h; simp [Except.map] at h
  · rw [htn] at h
    show (transformGo 10 (chainC d) "" [("o", chainN d)] []).map List.length = _
    simp only [transformGo, hge, htn]
    simpa [transformGo, Except.map] using h


/-! ## Claim C4 (amended): classification of CNF variable names -/

theorem cnfVarList_append (a b : Cnf) :
    cnfVarList (a ++ b) = cnfVarList a ++ cnfVarList b := by
  simp [cnfVarList]

theorem getSatVar_isLit_err (fuel : Nat) (v : String) (c : Circuit)
    (p : String) (er : PyErr) (hnin : v ∉ c.inputs) (hsig : v ∈ getSignals c)
    (hl : isLiteral fuel (.Variable v) c = .error er) :
    getSatVar fuel v c p = .error er := by
  simp [getSatVar, hnin, hsig, hl]

theorem getSatVar_glv (fuel : Nat) (v : String) (c : Circuit) (p : String)
    (hnin : v ∉ c.inputs) (hsig : v ∈ getSignals c)
    (hl : isLiteral fuel (.Variable v) c = .ok true) :
    getSatVar fuel v c p =
      match getLiteralValue fuel (.Variable v) c with
      | .error er => .error er
      | .ok b => .ok (.const b) := by
  simp [getSatVar, hnin, hsig, hl]

theorem getSatVar_none (fuel : Nat) (v : String) (c : Circuit) (p : String)
    (hnin : v ∉ c.inputs) (hnsig : v ∉ getSignals c) :
    getSatVar fuel v c p = .ok .pynone := by
  simp [getSatVar, hnin, hnsig]

theorem getSatVar_var_classify (fuel : Nat) (v : String) (c : Circuit)
    (p : String) (w : String) (h : getSatVar fuel v c p = .ok (.var w)) :
    (w = v ∧ v ∈ c.inputs) ∨ (w = p ++ v ∧ v ∈ getSignals c) := by
  by_cases hin : v ∈ c.inputs
  · rw [getSatVar_input fuel v c p hin] at h
    simp only [Except.ok.injEq, Operand.var.injEq] at h
    exact Or.inl ⟨h.symm, hin⟩
  · by_cases hsig : v ∈ getSignals c
    · rcases hl : isLiteral fuel (.Variable v) c with er | b
      · rw [getSatVar_isLit_err fuel v c p er hin hsig hl] at h
        cases h
      · cases b
        · rw [getSatVar_sig fuel v c p hin hsig hl] at h
          simp only [Except.ok.injEq, Operand.var.injEq] at h
          exact Or.inr ⟨h.symm, hsig⟩
        · rw [getSatVar_glv fuel v c p hin hsig hl] at h
          rcases hgv : getLiteralValue fuel (.Variable v) c with er | bv <;>
            rw [hgv] at h <;> simp at h
    · rw [getSatVar_none fuel v c p hin hsig] at h
      simp at h

theorem gate_not_vars (o1 : Operand) (out : String) (g : Cnf)
    (h : gate_not o1 out = .ok g) :
    ∀ v ∈ cnfVarList g, v = out ∨ o1 = .var v := by
  cases o1 <;> simp only [gate_not] at h <;>
    first
      | (split at h <;>
          (simp only [Except.ok.injEq] at h; subst h; intro v hv;
           simp [cnfVarList, pLit, nLit] at hv; aesop))
      | (simp only [Except.ok.injEq] at h; subst h; intro v hv;
         simp [cnfVarList, pLit, nLit] at hv; aesop)
      | exact Except.noConfusion h

theorem gate_and_vars (o1 o2 : Operand) (out : String) (g : Cnf)
    (h : gate_and o1 o2 out = .ok g) :
    ∀ v ∈ cnfVarList g, v = out ∨ o1 = .var v ∨ o2 = .var v := by
  cases o1 <;> cases o2 <;> simp only [gate_and] at h <;>
    first
      | (split at h <;>
          (simp only [Except.ok.injEq] at h; subst h; intro v hv;
           simp [cnfVarList, pLit, nLit] at hv; aesop))
      | (simp only [Except.ok.injEq] at h; subst h; intro v hv;
         simp [cnfVarList, pLit, nLit] at hv; aesop)
      | exact Except.noConfusion h

theorem gate_or_vars (o1 o2 : Operand) (out : String) (g : Cnf)
    (h : gate_or o1 o2 out = .ok g) :
    ∀ v ∈ cnfVarList g, v = out ∨ o1 = .var v ∨ o2 = .var v := by
  cases o1 <;> cases o2 <;> simp only [gate_or] at h <;>
    first
      | (split at h <;>
          (simp only [Except.ok.injEq] at h; subst h; intro v hv;
           simp [cnfVarList, pLit, nLit] at hv; aesop))
      | (simp only [Except.ok.injEq] at h; subst h; intro v hv;
         simp [cnfVarList, pLit, nLit] at hv; aesop)
      | exact Except.noConfusion h

theorem gate_xor_vars (o1 o2 : Operand) (out : String) (g : Cnf)
    (h : gate_xor o1 o2 out = .ok g) :
    ∀ v ∈ cnfVarList g, v = out ∨ o1 = .var v ∨ o2 = .var v := by
  cases o1 <;> cases o2 <;> simp only [gate_xor] at h <;>
    first
      | (split at h <;>
          (simp only [Except.ok.injEq] at h; subst h; intro v hv;
           simp [cnfVarList, pLit, nLit] at hv; aesop))
      | (simp only [Except.ok.injEq] at h; subst h; intro v hv;
         simp [cnfVarList, pLit, nLit] at hv; aesop)
      | exact Except.noConfusion h


theorem transform_node_vars (fuel : Nat) (c : Circuit) (p : String) :
    ∀ n : Node,
      (∀ out f, transform_node fuel n out c p = .ok f →
        ∀ v ∈ cnfVarList f, v = out ∨ varOK c p v) ∧
      (∀ f1 o, childPart fuel n c p = .ok (f1, o) →
        (∀ v ∈ cnfVarList f1, varOK c p v) ∧
        ∀ w, o = .var w → varOK c p w) := by
  intro n
  induction n with
  | Literal b =>
      constructor
      · intro out f htn v hv
        rw [transform_node_lit] at htn
        simp only [Except.ok.injEq] at htn
        subst htn
        simp [cnfVarList] at hv
      · intro f1 o hcp
        rw [childPart_lit] at hcp
        simp only [Except.ok.injEq, Prod.mk.injEq] at hcp
        obtain ⟨h1, h2⟩ := hcp
        constructor
        · intro v hv; rw [← h1] at hv; simp [cnfVarList] at hv
        · intro w hw; rw [← h2] at hw; cases hw
  | Variable v0 =>
      constructor
      · intro out f htn v hv
        rw [transform_node_var] at htn
        by_cases hsig : v0 ∈ getSignals c
        · rw [if_pos hsig] at htn
          simp only [Except.ok.injEq] at htn
          subst htn
          simp [cnfVarList, pLit, nLit] at hv
          have hv' : v = out ∨ v = p ++ v0 := by tauto
          rcases hv' with hv' | hv'
          · exact Or.inl hv'
          · exact Or.inr (Or.inr (Or.inl ⟨v0, hsig, hv'⟩))
        · rw [if_neg hsig] at htn; cases htn
      · intro f1 o hcp
        rcases hsv : getSatVar fuel v0 c p with er | o'
        · rw [childPart_var, hsv] at hcp; cases hcp
        · rw [childPart_var_ok fuel v0 c p o' hsv] at hcp
          simp only [Except.ok.injEq, Prod.mk.injEq] at hcp
          obtain ⟨h1, h2⟩ := hcp
          constructor
          · intro v hv; rw [← h1] at hv; simp [cnfVarList] at hv
          · intro w hw
            rw [← h2] at hw
            subst hw
            rcases getSatVar_var_classify fuel v0 c p w hsv with ⟨hw, hin⟩ |
              ⟨hw, hsig⟩
            · exact Or.inl (hw ▸ hin)
            · exact Or.inr (Or.inl ⟨v0, hsig, hw⟩)
  | UnOp op i ch ih =>
      have main : ∀ out f, transform_node fuel (.UnOp op i ch) out c p = .ok f →
          ∀ v ∈ cnfVarList f, v = out ∨ varOK c p v := by
        intro out f htn v hv
        rcases hcp : childPart fuel ch c p with er | ⟨f1, o1⟩
        · rw [transform_node_unop, hcp] at htn; cases htn
        · obtain ⟨hvars1, hop1⟩ := ih.2 f1 o1 hcp
          rw [transform_node_unop_ok fuel op i ch out c p f1 o1 hcp] at htn
          by_cases hop : op = "~"
          · rw [if_pos hop] at htn
            rcases hg : gate_not o1 out with er | g
            · rw [hg] at htn; cases htn
            · rw [hg] at htn
              simp only [Except.ok.injEq] at htn
              subst htn
              rw [cnfVarList_append, List.mem_append] at hv
              rcases hv with hv | hv
              · exact Or.inr (hvars1 v hv)
              · rcases gate_not_vars o1 out g hg v hv with hv | hv
                · exact Or.inl hv
                · exact Or.inr (hop1 v hv)
          · rw [if_neg hop] at htn
            simp only [Except.ok.injEq] at htn
            subst htn
            exact Or.inr (hvars1 v hv)
      refine ⟨main, ?_⟩
      intro f1 o hcp
      rcases htn : transform_node fuel (.UnOp op i ch) ("y_" ++ toString i) c p
        with er | f
      · rw [childPart_unop, htn] at hcp; cases hcp
      · rw [childPart_unop_ok fuel op i ch c p f htn] at hcp
        simp only [Except.ok.injEq, Prod.mk.injEq] at hcp
        obtain ⟨h1, h2⟩ := hcp
        constructor
        · intro v hv
          rw [← h1] at hv
          rcases main ("y_" ++ toString i) f htn v hv with hv | hv
          · exact Or.inr (Or.inr ⟨i, hv⟩)
          · exact hv
        · intro w hw
          rw [← h2] at hw
          simp only [Operand.var.injEq] at hw
          exact Or.inr (Or.inr ⟨i, hw.symm⟩)
  | BinOp op i l r ihl ihr =>
      have main : ∀ out f, transform_node fuel (.BinOp op i l r) out c p = .ok f →
          ∀ v ∈ cnfVarList f, v = out ∨ varOK c p v := by
        intro out f htn v hv
        rcases hcp1 : childPart fuel l c p with er | ⟨f1, o1⟩
        · rw [transform_node_binop, hcp1] at htn; cases htn
        · rcases hcp2 : childPart fuel r c p with er | ⟨f2, o2⟩
          · rw [transform_node_binop, hcp1, hcp2] at htn; cases htn
          · obtain ⟨hvars1, hop1⟩ := ihl.2 f1 o1 hcp1
            obtain ⟨hvars2, hop2⟩ := ihr.2 f2 o2 hcp2
            rw [transform_node_binop_ok fuel op i l r out c p f1 f2 o1 o2
              hcp1 hcp2] at htn
            have hgate : ∀ g : Cnf,
                (∀ v ∈ cnfVarList g, v = out ∨ o1 = .var v ∨ o2 = .var v) →
                f = f1 ++ f2 ++ g → (v = out ∨ varOK c p v) := by
              intro g hgv hf
              subst hf
              rw [cnfVarList_append, List.mem_append] at hv
              rcases hv with hv | hv
              · rw [cnfVarList_append, List.mem_append] at hv
                rcases hv with hv | hv
                · exact Or.inr (hvars1 v hv)
                · exact Or.inr (hvars2 v hv)
              · rcases hgv v hv with hv | hv | hv
                · exact Or.inl hv
                · exact Or.inr (hop1 v hv)
                · exact Or.inr (hop2 v hv)
            by_cases hop : op = "&"
            · rw [if_pos hop] at htn
              rcases hg : gate_and o1 o2 out with er | g
              · rw [hg] at htn; cases htn
              · rw [hg] at htn
                simp only [Except.ok.injEq] at htn
                exact hgate g (gate_and_vars o1 o2 out g hg) htn.symm
            · rw [if_neg hop] at htn
              by_cases hop2' : op = "|"
              · rw [if_pos hop2'] at htn
                rcases hg : gate_or o1 o2 out with er | g
                · rw [hg] at htn; cases htn
                · rw [hg] at htn
                  simp only [Except.ok.injEq] at htn
                  exact hgate g (gate_or_vars o1 o2 out g hg) htn.symm
              · rw [if_neg hop2'] at htn
                by_cases hop3 : op = "^"
                · rw [if_pos hop3] at htn
                  rcases hg : gate_xor o1 o2 out with er | g
                  · rw [hg] at htn; cases htn
                  · rw [hg] at htn
                    simp only [Except.ok.injEq] at htn
                    exact hgate g (gate_xor_vars o1 o2 out g hg) htn.symm
                · rw [if_neg hop3] at htn
                  simp only [Except.ok.injEq] at htn
                  subst htn
                  rw [cnfVarList_append, List.mem_append] at hv
                  rcases hv with hv | hv
                  · exact Or.inr (hvars1 v hv)
                  · exact Or.inr (hvars2 v hv)
      refine ⟨main, ?_⟩
      intro f1 o hcp
      rcases htn : transform_node fuel (.BinOp op i l r) ("y_" ++ toString i) c p
        with er | f
      · rw [childPart_binop, htn] at hcp; cases hcp
      · rw [childPart_binop_ok fuel op i l r c p f htn] at hcp
        simp only [Except.ok.injEq, Prod.mk.injEq] at hcp
        obtain ⟨h1, h2⟩ := hcp
        constructor
        · intro v hv
          rw [← h1] at hv
          rcases main ("y_" ++ toString i) f htn v hv with hv | hv
          · exact Or.inr (Or.inr ⟨i, hv⟩)
          · exact hv
        · intro w hw
          rw [← h2] at hw
          simp only [Operand.var.injEq] at hw
          exact Or.inr (Or.inr ⟨i, hw.symm⟩)

theorem transformGo_vars (fuel : Nat) (c : Circuit) (p : String) :
    ∀ (l : List (String × Node)) (acc : Cnf) (F : Cnf),
      (∀ s ∈ l.map (·.1), s ∈ getSignals c) →
      (∀ v ∈ cnfVarList acc, varOK c p v) →
      transformGo fuel c p l acc = .ok F →
      ∀ v ∈ cnfVarList F, varOK c p v := by
  intro l
  induction l with
  | nil =>
      intro acc F _ hacc hgo
      simp only [transformGo, Except.ok.injEq] at hgo
      subst hgo
      exact hacc
  | cons hd tl ih =>
      intro acc F hsigs hacc hgo
      obtain ⟨s, n0⟩ := hd
      rcases hge : getEquation c s with er | e
      · simp only [transformGo, hge] at hgo; cases hgo
      · rcases htn : transform_node fuel e (p ++ s) c p with er | f
        · simp only [transformGo, hge, htn] at hgo; cases hgo
        · simp only [transformGo, hge, htn] at hgo
          refine ih (acc ++ f) F (fun x hx => hsigs x (by simp [hx])) ?_ hgo
          intro v hv
          rw [cnfVarList_append, List.mem_append] at hv
          rcases hv with hv | hv
          · exact hacc v hv
          · rcases (transform_node_vars fuel c p e).1 (p ++ s) f htn v hv
              with hv | hv
            · exact Or.inr (Or.inl ⟨s, hsigs s (by simp), hv⟩)
            · exact hv

/-- Claim C4 (amended): every variable name occurring in the CNF of a
successful `transform(c, p)` is a raw (unprefixed) input name, a prefixed
signal name `p ++ s`, or a synthetic `y_<id>` name (also unprefixed) — so
only signal variables carry the prefix; input and synthetic variables do
not. -/
theorem C4_amended_vars (fuel : Nat) (c : Circuit) (p : String) (F : Cnf)
    (h : transform fuel c p = .ok F) :
    ∀ v ∈ cnfVarList F, v ∈ c.inputs ∨ (∃ s ∈ getSignals c, v = p ++ s) ∨
      ∃ i : Nat, v = "y_" ++ toString i := by
  intro v hv
  exact transformGo_vars fuel c p c.eqs [] F (fun s hs => hs)
    (by intro x hx; simp [cnfVarList] at hx) h v hv

/-- Witness for C4 (amended): the variable `c1_o` of the concrete CNF of
`cBufA` under prefix `c1_` is classified. -/
theorem C4_amended_witness :
    "c1_o" ∈ cnfVarList [[nLit "a", nLit "a", pLit "c1_o"],
      [pLit "a", nLit "c1_o"], [pLit "a", nLit "c1_o"]] ∧
      ("c1_o" ∈ cBufA.inputs ∨
        (∃ s ∈ getSignals cBufA, "c1_o" = "c1_" ++ s) ∨
        ∃ i : Nat, "c1_o" = "y_" ++ toString i) :=
  ⟨by decide,
    C4_amended_vars 10 cBufA "c1_"
      [[nLit "a", nLit "a", pLit "c1_o"],
       [pLit "a", nLit "c1_o"], [pLit "a", nLit "c1_o"]] (by rfl)
      "c1_o" (by decide)⟩


/-! ## Sufficient fuel exists for every well-formed circuit

This shows the fuel hypothesis of `C2_transform_exact` is satisfiable for
every well-formed literal-free circuit: any fuel beyond
`(maxEqHeight c + 1) * (number of equations)` makes `isLiteral` return
`false` on every signal reference. -/

theorem le_foldr_max : ∀ (l : List Nat) (x : Nat), x ∈ l → x ≤ l.foldr max 0 := by
  intro l
  induction l with
  | nil => intro x hx; cases hx
  | cons y ys ih =>
      intro x hx
      rcases List.mem_cons.mp hx with hx | hx
      · subst hx; exact Nat.le_max_left _ _
      · exact Nat.le_trans (ih x hx) (Nat.le_max_right _ _)

theorem le_maxEqHeight (c : Circuit) (se : String × Node) (h : se ∈ c.eqs) :
    nodeHeight se.2 ≤ maxEqHeight c :=
  le_foldr_max _ _ (List.mem_map.mpr ⟨se, h, rfl⟩)


theorem topoB_split (ins : List String) :
    ∀ (pre : List (String × Node)) (D : List String) (s : String) (e : Node)
      (post : List (String × Node)),
      topoB ins D (pre ++ (s, e) :: post) = true →
      scopedB ins (D ++ pre.map (·.1)) e = true := by
  intro pre
  induction pre with
  | nil =>
      intro D s e post h
      have h' : scopedB ins D e = true ∧
          topoB ins (D ++ [s]) post = true := by
        simpa [topoB, Bool.and_eq_true] using h
      simpa using h'.1
  | cons hd tl ih =>
      intro D s e post h
      obtain ⟨s0, e0⟩ := hd
      have h' : scopedB ins D e0 = true ∧
          topoB ins (D ++ [s0]) (tl ++ (s, e) :: post) = true := by
        simpa [topoB, Bool.and_eq_true] using h
      have := ih (D ++ [s0]) s e post h'.2
      simpa [List.append_assoc] using this

/-- Any fuel beyond `(maxEqHeight c + 1) * |eqs|` lets `isLiteral` terminate
with `false` on every literal-free, well-scoped node: the fuel hypothesis of
`C2_transform_exact` holds for every well-formed circuit with some fuel. -/
theorem isLiteral_false_of_wf (c : Circuit) (p : String) (hwf : Wf c p) :
    ∀ (fuel j : Nat) (n : Node), litFree n = true →
      scopedB c.inputs ((c.eqs.take j).map (·.1)) n = true →
      (maxEqHeight c + 1) * j + nodeHeight n < fuel →
      isLiteral fuel n c = .ok false := by
  intro fuel
  induction fuel using Nat.strong_induction_on with
  | _ fuel ihf =>
      intro j n hlf hsc hbound
      obtain ⟨f, rfl⟩ : ∃ f, fuel = f + 1 := by
        cases fuel
        · omega
        · exact ⟨_, rfl⟩
      cases n with
      | Literal b => simp [litFree] at hlf
      | Variable v =>
          rcases scopedB_mem _ _ _ v hsc (by simp [nodeVars]) with hin | hpre
          · simp [isLiteral, hin]
          · obtain ⟨se, hse, hsev⟩ := List.mem_map.mp hpre
            obtain ⟨⟨k, hk⟩, hget⟩ := List.mem_iff_get.mp hse
            have hkj : k < j := by
              have := hk
              simp [List.length_take] at this
              omega
            have hklen : k < c.eqs.length := by
              have := hk
              simp [List.length_take] at this
              omega
            have hgetl : c.eqs.get ⟨k, hklen⟩ = se := by
              rw [← hget]
              simp [List.get_eq_getElem, List.getElem_take]
            have hse_eta : se = (v, se.2) := by
              rw [← hsev]
            have hmemk : (v, se.2) ∈ c.eqs :=
              hse_eta ▸ List.mem_of_mem_take hse
            have hvsig : v ∈ getSignals c :=
              List.mem_map.mpr ⟨(v, se.2), hmemk, rfl⟩
            have hvnin : v ∉ c.inputs := fun hvin => hwf.2.1 v hvin hvsig
            have hge : getEquation c v = .ok se.2 :=
              getEquation_of_mem c v se.2 (Wf_sigs_nodup c p hwf) hmemk
            have hdecomp : c.eqs = c.eqs.take k ++ (v, se.2) :: c.eqs.drop (k + 1) := by
              conv_lhs => rw [← List.take_append_drop k c.eqs]
              congr 1
              rw [show ((v, se.2) : String × Node) = c.eqs.get ⟨k, hklen⟩ from
                by rw [hgetl, ← hse_eta], List.get_eq_getElem]
              exact (List.getElem_cons_drop c.eqs k hklen).symm
            obtain ⟨hlfk, _, _⟩ := hwf.2.2.2 (v, se.2) hmemk
            have hsck : scopedB c.inputs ((c.eqs.take k).map (·.1)) se.2 = true := by
              have := topoB_split c.inputs (c.eqs.take k) [] v se.2
                (c.eqs.drop (k + 1)) (by rw [← hdecomp]; exact hwf.2.2.1)
              simpa using this
            have hH : nodeHeight se.2 ≤ maxEqHeight c :=
              le_maxEqHeight c (v, se.2) hmemk
            have h3 : (maxEqHeight c + 1) * (k + 1) =
                (maxEqHeight c + 1) * k + (maxEqHeight c + 1) :=
              Nat.mul_succ _ _
            have h1 : (maxEqHeight c + 1) * (k + 1) ≤ (maxEqHeight c + 1) * j :=
              Nat.mul_le_mul_left _ hkj
            have hboundk : (maxEqHeight c + 1) * k + nodeHeight se.2 < f := by
              simp [nodeHeight] at hbound
              omega
            have hrec := ihf f (by omega) k se.2 hlfk hsck hboundk
            simp [isLiteral, hvnin, hge, hrec]
      | UnOp op i ch =>
          have hrec := ihf f (by omega) j ch (by simpa [litFree] using hlf)
            (by simpa [scopedB, nodeVars] using hsc)
            (by simp [nodeHeight] at hbound; omega)
          simp [isLiteral, hrec]
      | BinOp op i l r =>
          have hlfl : litFree l = true := by
            have := hlf
            simp [litFree, Bool.and_eq_true] at this
            exact this.1
          have hscl : scopedB c.inputs ((c.eqs.take j).map (·.1)) l = true := by
            rw [scopedB] at hsc ⊢
            rw [List.all_eq_true] at hsc ⊢
            intro v hv
            exact hsc v (by simp [nodeVars]; exact Or.inl hv)
          have hrec := ihf f (by omega) j l hlfl hscl
            (by simp [nodeHeight] at hbound; omega)
          simp [isLiteral, hrec]

end ECheck
